import Mathlib

/-!
# Bradley-Terry EM (`BT_EM_arma`): embedding and verified properties

Shallow embedding of `src/BT_EM_arma_SBT.cpp`.

* Scalars (`double`) are exact rationals `ℚ`.  Lean's `x / 0 = 0` differs from
  IEEE-754, which yields a non-finite value: the theorems over `ℚ` are
  statements of exact arithmetic and describe the compiled code on runs in
  which no divisor is zero, up to rounding.
* Where the outcome depends on rounding, infinities or NaN, the same lines are
  embedded a second time (namespace `G`) with the arithmetic as a parameter
  `A : Arith`; `binary64` is a model of IEEE-754 double arithmetic on which
  concrete runs are evaluated.
* An Armadillo matrix (`arma::mat`, `arma::sp_mat`) of size `K × K` is the
  function `Fin K → Fin K → ℚ` of its entries; the entries visited by
  `sp_mat::const_iterator` are the non-zero ones, in column-major order
  (`nonzeros`).
* The `int` counter `iter` is an `Int` reduced to 32 bits after each update
  (`wrap32`).
* The `while` loop is run with explicit fuel (`whileLoop`); `BT_EM_arma`
  supplies enough fuel for every `maxit`, and more fuel gives the same result.
* The external eigen-solver `arma::eigs_gen` is a parameter `eigs_gen` that
  returns the (real) components of the eigenvector it finds; a solver failure
  is not modelled.
-/

namespace SBT

/-- A dense vector `arma::vec` of length `K`. -/
abbrev Vec (K : ℕ) := Fin K → ℚ

/-- The entries of a `K × K` Armadillo matrix (`arma::mat` or `arma::sp_mat`). -/
abbrev Mat (K : ℕ) := Fin K → Fin K → ℚ

/-- Two's-complement reduction of an integer to the range of a 32-bit `int`. -/
def wrap32 (x : Int) : Int := (x + 2147483648) % 4294967296 - 2147483648

/-- All positions `(row, col)` of a `K × K` matrix in column-major order. -/
def positions (K : ℕ) : List (Fin K × Fin K) :=
  (List.finRange K).flatMap fun c => (List.finRange K).map fun r => (r, c)

/-- The positions visited by `sp_mat::const_iterator` from `begin()` to `end()`:
the stored (non-zero) entries, column by column. -/
def nonzeros {K : ℕ} (M : Mat K) : List (Fin K × Fin K) :=
  (positions K).filter fun p => M p.1 p.2 ≠ 0

/-- The mask `arma::mat spec(K, K, fill::ones); spec.diag().zeros();`. -/
def spec (K : ℕ) : Mat K := fun i j => if i = j then 0 else 1

/-- Element-wise product `A % B`. -/
def schur {K : ℕ} (A B : Mat K) : Mat K := fun i j => A i j * B i j

/-- Transpose `A.t()`. -/
def t {K : ℕ} (A : Mat K) : Mat K := fun i j => A j i

/-- Matrix sum `A + B`. -/
def madd {K : ℕ} (A B : Mat K) : Mat K := fun i j => A i j + B i j

/-- Row sums `sum(M, 1)`. -/
def sum1 {K : ℕ} (M : Mat K) : Vec K := fun i => ∑ j, M i j

/-- Column sums `sum(M, 0)`. -/
def sum0 {K : ℕ} (M : Mat K) : Vec K := fun j => ∑ i, M i j

/-- Batch constructor `arma::sp_mat(locations, values, n_rows, n_cols)`: the
matrix holding `values[i]` at `locations[i]` and zero elsewhere. -/
def sp_mat {K : ℕ} (locations : List (Fin K × Fin K)) (values : List ℚ) : Mat K :=
  fun i j =>
    match (locations.zip values).find? fun e => e.1 = (i, j) with
    | some e => e.2
    | none => 0

/-- Lines 27-29: `W = W % spec`, the input with its diagonal masked out. -/
def maskDiag {K : ℕ} (W : Mat K) : Mat K := schur W (spec K)

/-- Line 32: `N = W + W.t()`. -/
def initN {K : ℕ} (W0 : Mat K) : Mat K := madd W0 (t W0)

/-- Lines 41-47: the positions of the non-zeros of `N`. -/
def n_locations {K : ℕ} (N : Mat K) : List (Fin K × Fin K) := nonzeros N

/-- Lines 41-47: the values of the non-zeros of `N`, in iteration order. -/
def nij {K : ℕ} (N : Mat K) : List ℚ := (nonzeros N).map fun p => N p.1 p.2

/-- Line 50: `numer = sum(W, 1) + (a - 1)`. -/
def numer {K : ℕ} (W0 : Mat K) (a : ℚ) : Vec K := fun k => sum1 W0 k + (a - 1)

/-- Line 54: `pi.fill(1.0 / K)`. -/
def uniformPi (K : ℕ) : Vec K := fun _ => 1 / (K : ℚ)

/-- Line 56: `use_eigs = !any(sum(W, 0) == 0)`. -/
def use_eigs {K : ℕ} (W0 : Mat K) : Bool :=
  !((List.finRange K).any fun j => decide (sum0 W0 j = 0))

/-- Line 63: `Wcolsum = 1.0 / sum(W, 0)`. -/
def Wcolsum {K : ℕ} (W0 : Mat K) : Vec K := fun j => 1 / sum0 W0 j

/-- Lines 64-74: the matrix rebuilt from the non-zeros of `W`, each multiplied
by `Wcolsum[it.row()]`. -/
def rescaleW {K : ℕ} (W0 : Mat K) : Mat K :=
  sp_mat (nonzeros W0) ((nonzeros W0).map fun p => W0 p.1 p.2 * Wcolsum W0 p.1)

/-- Which starting vector lines 53-78 select, with the matrix passed to the
eigen-solver on the spectral path. -/
inductive Start (K : ℕ) where
  | uniform : Start K
  | spectral (M : Mat K) : Start K

/-- Lines 56-74: the guard `use_eigs && (K > 2)` and the argument prepared for
`eigs_gen`. -/
def chooseStart {K : ℕ} (W0 : Mat K) : Start K :=
  if use_eigs W0 && decide (K > 2) then Start.spectral (rescaleW W0) else Start.uniform

/-- Lines 53-78: the initial `pi`; `pi = abs(eigvec)` on the spectral path. -/
def initPi {K : ℕ} (eigs_gen : Mat K → Vec K) (W0 : Mat K) : Vec K :=
  match chooseStart W0 with
  | Start.uniform => uniformPi K
  | Start.spectral M => fun k => |eigs_gen M k|

/-- Lines 94-96: `values[i] = nij[i] / (pi[row_i] + pi[col_i])`. -/
def eValues {K : ℕ} (nij : List ℚ) (locs : List (Fin K × Fin K)) (pi : Vec K) : List ℚ :=
  List.zipWith (fun v p => v / (pi p.1 + pi p.2)) nij locs

/-- Lines 94-97, the E-step: `N` rebuilt on the stored pattern of `N0`. -/
def eStep {K : ℕ} (N0 : Mat K) (pi : Vec K) : Mat K :=
  sp_mat (n_locations N0) (eValues (nij N0) (n_locations N0) pi)

/-- Lines 100-104: `rowsums[it.row()] += *it * pi[it.row()]` over the non-zeros
of `N`, starting from zeros. -/
def accumRowsums {K : ℕ} (N : Mat K) (pi : Vec K) : Vec K :=
  (nonzeros N).foldl
    (fun rs p => Function.update rs p.1 (rs p.1 + N p.1 p.2 * pi p.1)) (fun _ => 0)

/-- Lines 100-106: `rowsums` after `rowsums += b * pi`. -/
def rowsums {K : ℕ} (N : Mat K) (b : ℚ) (pi : Vec K) : Vec K :=
  fun k => accumRowsums N pi k + b * pi k

/-- Line 107: `res = abs(numer - rowsums)`. -/
def res {K : ℕ} (numer : Vec K) (N : Mat K) (b : ℚ) (pi : Vec K) : Vec K :=
  fun k => |numer k - rowsums N b pi k|

/-- Lines 108-115: `converged = TRUE`, then the scan over `k` that sets it to
`FALSE` and breaks at the first `res(k) > epsilon`.  Over `ℚ` every residual is
a number, so "not `>`" is `≤`; the comparison on a NaN residual is modelled by
`G.scanRes` with `Dbl.gt`. -/
def scanRes {K : ℕ} (res : Vec K) (epsilon : ℚ) : List (Fin K) → Bool
  | [] => true
  | k :: ks => if res k > epsilon then false else scanRes res epsilon ks

/-- Lines 99-115: the convergence test of one round. -/
def checkConverged {K : ℕ} (numer : Vec K) (N : Mat K) (b epsilon : ℚ) (pi : Vec K) : Bool :=
  scanRes (res numer N b pi) epsilon (List.finRange K)

/-- Line 118: `denom = sum(N, 1) + b`. -/
def denom {K : ℕ} (N : Mat K) (b : ℚ) : Vec K := fun k => sum1 N k + b

/-- Lines 118-119, the M-step: `pi = numer / denom`.  The quotient is exact and
is `0` for `denom = 0`; the rounded quotient and the division by zero of
`double` are modelled by `G.mStep` with `Dbl.div`. -/
def mStep {K : ℕ} (numer : Vec K) (N : Mat K) (b : ℚ) : Vec K :=
  fun k => numer k / denom N b k

/-- The variables the loop reads and writes, with a count of the executions of
its body. -/
structure LoopState (K : ℕ) where
  iter : Int
  converged : Bool
  pi : Vec K
  rounds : ℕ

/-- Lines 92-119: one execution of the loop body. -/
def loopBody {K : ℕ} (N0 : Mat K) (numer : Vec K) (b epsilon : ℚ) (s : LoopState K) :
    LoopState K :=
  let N := eStep N0 s.pi
  { iter := s.iter
    converged := checkConverged numer N b epsilon s.pi
    pi := mStep numer N b
    rounds := s.rounds + 1 }

/-- Line 90: `while (iter++ < maxit && !converged) body`.  The comparison reads
`iter` before the increment, which happens on every evaluation of the
condition. -/
def whileLoop {K : ℕ} (N0 : Mat K) (numer : Vec K) (b epsilon : ℚ) (maxit : Int) :
    ℕ → LoopState K → Option (LoopState K)
  | 0, _ => none
  | fuel + 1, s =>
    let enter := decide (s.iter < maxit) && !s.converged
    let s1 : LoopState K := { s with iter := wrap32 (s.iter + 1) }
    if enter then whileLoop N0 numer b epsilon maxit fuel (loopBody N0 numer b epsilon s1)
    else some s1

/-- Line 123: `pi /= sum(pi)`.  The quotient is exact and is `0` for a zero sum;
the `double` division (NaN for `0/0` and `inf/inf`) is modelled by
`G.normalize` with `Dbl.div`. -/
def normalize {K : ℕ} (pi : Vec K) : Vec K := fun k => pi k / ∑ j, pi j

/-- The returned list: `pi`, `iters`, `converged`; `rounds` is the count of
executed loop bodies and `rawPi` the value of `pi` before line 123. -/
structure Result (K : ℕ) where
  pi : Vec K
  iters : Int
  converged : Bool
  rounds : ℕ
  rawPi : Vec K

/-- Lines 87-125 from a given initial `pi`. -/
def runFrom {K : ℕ} (W0 : Mat K) (a b : ℚ) (maxit : Int) (epsilon : ℚ) (pi0 : Vec K)
    (fuel : ℕ) : Option (Result K) :=
  match whileLoop (initN W0) (numer W0 a) b epsilon maxit fuel
      { iter := 0, converged := false, pi := pi0, rounds := 0 } with
  | none => none
  | some s =>
    some { pi := normalize s.pi
           iters := wrap32 (s.iter - 1)
           converged := s.converged
           rounds := s.rounds
           rawPi := s.pi }

/-- The whole function, lines 22-125, with the loop given `fuel` steps. -/
def BT_EM_arma_fuel {K : ℕ} (eigs_gen : Mat K → Vec K) (W : Mat K) (a b : ℚ) (maxit : Int)
    (epsilon : ℚ) (fuel : ℕ) : Option (Result K) :=
  let W0 := maskDiag W
  runFrom W0 a b maxit epsilon (initPi eigs_gen W0) fuel

/-- `BT_EM_arma(W, a, b, maxit, epsilon)`: the loop evaluates its condition at
most `maxit + 1` times, which is the fuel supplied. -/
def BT_EM_arma {K : ℕ} (eigs_gen : Mat K → Vec K) (W : Mat K) (a b : ℚ) (maxit : Int)
    (epsilon : ℚ) : Option (Result K) :=
  BT_EM_arma_fuel eigs_gen W a b maxit epsilon (maxit.toNat + 1)

/-- The value the loop body assigns to `pi` when it starts from `pi`
(lines 94-97 and 118-119). -/
def emRound {K : ℕ} (N0 : Mat K) (numer : Vec K) (b : ℚ) (pi : Vec K) : Vec K :=
  mStep numer (eStep N0 pi) b

/-- The value of `pi` after `n` executions of the loop body from `pi0`, that is
at the start of round `n + 1`. -/
def piSeq {K : ℕ} (N0 : Mat K) (numer : Vec K) (b : ℚ) (pi0 : Vec K) : ℕ → Vec K
  | 0 => pi0
  | n + 1 => emRound N0 numer b (piSeq N0 numer b pi0 n)

/-- The outcome of the convergence test computed in round `n + 1` when the
rounds before it ran from `pi0`. -/
def testRound {K : ℕ} (N0 : Mat K) (numer : Vec K) (b epsilon : ℚ) (pi0 : Vec K) (n : ℕ) :
    Bool :=
  checkConverged numer (eStep N0 (piSeq N0 numer b pi0 n)) b epsilon (piSeq N0 numer b pi0 n)

/-- No division of the first `n` rounds run from `pi0` has a zero divisor:
neither an E-step divisor `pi[i] + pi[j]` at a stored location (lines 94-96) nor
an M-step denominator (line 119). -/
def divisorsNonzero {K : ℕ} (N0 : Mat K) (numer : Vec K) (b : ℚ) (pi0 : Vec K) (n : ℕ) : Prop :=
  ∀ m, m < n →
    (∀ p, p ∈ n_locations N0 →
      piSeq N0 numer b pi0 m p.1 + piSeq N0 numer b pi0 m p.2 ≠ 0) ∧
    ∀ k, denom (eStep N0 (piSeq N0 numer b pi0 m)) b k ≠ 0

/-! ## The same code with the arithmetic of `double` as a parameter

The definitions above compute in exact rationals.  The definitions of this
section are the same lines of the source with the scalar type and its
operations taken as a parameter `A : Arith`, so that a statement proved for
every `A` holds for IEEE-754 arithmetic (rounding, infinities, NaN), and
`binary64` is a model of that arithmetic used to evaluate concrete runs.
A sparse matrix is the function of its entries with `A.zero` at the positions
that are not stored. -/

/-- The scalar type `double` and the operations the source applies to it. -/
structure Arith where
  R : Type
  zero : R
  one : R
  ofNat : ℕ → R
  add : R → R → R
  sub : R → R → R
  mul : R → R → R
  div : R → R → R
  abs : R → R
  gt : R → R → Bool
  isZero : R → Bool

namespace G

/-- A dense vector `arma::vec` of length `K`. -/
abbrev Vec (A : Arith) (K : ℕ) := Fin K → A.R

/-- The entries of a `K × K` matrix; `A.zero` where a sparse matrix stores
nothing. -/
abbrev Mat (A : Arith) (K : ℕ) := Fin K → Fin K → A.R

/-- A sparse matrix never stores a zero: a computed zero is dropped. -/
def keep (A : Arith) (x : A.R) : A.R := if A.isZero x then A.zero else x

/-- The positions visited by `sp_mat::const_iterator`: the stored entries,
column by column. -/
def nonzeros (A : Arith) {K : ℕ} (M : Mat A K) : List (Fin K × Fin K) :=
  (positions K).filter fun p => !A.isZero (M p.1 p.2)

/-- The mask `arma::mat spec(K, K, fill::ones); spec.diag().zeros();`. -/
def spec (A : Arith) (K : ℕ) : Mat A K := fun i j => if i = j then A.zero else A.one

/-- Lines 27-29: `W = W % spec` (sparse times dense, element-wise): every stored
entry is multiplied by the mask entry. -/
def maskDiag (A : Arith) {K : ℕ} (W : Mat A K) : Mat A K :=
  fun i j => if A.isZero (W i j) then A.zero else keep A (A.mul (W i j) (spec A K i j))

/-- Line 32: `N = W + W.t()` (sparse plus sparse): an entry stored in one
operand only is copied, entries stored in both are added. -/
def initN (A : Arith) {K : ℕ} (W0 : Mat A K) : Mat A K :=
  fun i j =>
    if A.isZero (W0 i j) then W0 j i
    else if A.isZero (W0 j i) then W0 i j
    else keep A (A.add (W0 i j) (W0 j i))

/-- Row sums `sum(M, 1)` of a sparse matrix: every stored entry is added to the
accumulator of its row. -/
def sum1 (A : Arith) {K : ℕ} (M : Mat A K) : Vec A K :=
  (nonzeros A M).foldl (fun acc p => Function.update acc p.1 (A.add (acc p.1) (M p.1 p.2)))
    (fun _ => A.zero)

/-- Column sums `sum(M, 0)` of a sparse matrix. -/
def sum0 (A : Arith) {K : ℕ} (M : Mat A K) : Vec A K :=
  (nonzeros A M).foldl (fun acc p => Function.update acc p.2 (A.add (acc p.2) (M p.1 p.2)))
    (fun _ => A.zero)

/-- The sum `sum(pi)` of a dense vector, accumulated from zero in index
order. -/
def sumVec (A : Arith) {K : ℕ} (v : Vec A K) : A.R :=
  ((List.finRange K).map v).foldl A.add A.zero

/-- Batch constructor `arma::sp_mat(locations, values, n_rows, n_cols)`. -/
def sp_mat (A : Arith) {K : ℕ} (locations : List (Fin K × Fin K)) (values : List A.R) :
    Mat A K :=
  fun i j =>
    match (locations.zip values).find? fun e => e.1 = (i, j) with
    | some e => keep A e.2
    | none => A.zero

/-- Lines 41-47: the positions of the stored entries of `N`. -/
def n_locations (A : Arith) {K : ℕ} (N : Mat A K) : List (Fin K × Fin K) := nonzeros A N

/-- Lines 41-47: the values of the stored entries of `N`. -/
def nij (A : Arith) {K : ℕ} (N : Mat A K) : List A.R := (nonzeros A N).map fun p => N p.1 p.2

/-- Line 50: `numer = sum(W, 1) + (a - 1)`. -/
def numer (A : Arith) {K : ℕ} (W0 : Mat A K) (a : A.R) : Vec A K :=
  fun k => A.add (sum1 A W0 k) (A.sub a A.one)

/-- Line 54: `pi.fill(1.0 / K)`. -/
def uniformPi (A : Arith) (K : ℕ) : Vec A K := fun _ => A.div A.one (A.ofNat K)

/-- Line 56: `use_eigs = !any(sum(W, 0) == 0)`. -/
def use_eigs (A : Arith) {K : ℕ} (W0 : Mat A K) : Bool :=
  !((List.finRange K).any fun j => A.isZero (sum0 A W0 j))

/-- Line 63: `Wcolsum = 1.0 / sum(W, 0)`. -/
def Wcolsum (A : Arith) {K : ℕ} (W0 : Mat A K) : Vec A K := fun j => A.div A.one (sum0 A W0 j)

/-- Lines 64-74: the matrix rebuilt from the stored entries of `W`, each
multiplied by `Wcolsum[it.row()]`. -/
def rescaleW (A : Arith) {K : ℕ} (W0 : Mat A K) : Mat A K :=
  sp_mat A (nonzeros A W0)
    ((nonzeros A W0).map fun p => A.mul (W0 p.1 p.2) (Wcolsum A W0 p.1))

/-- Lines 53-78: the initial `pi`. -/
def initPi (A : Arith) {K : ℕ} (eigs_gen : Mat A K → Vec A K) (W0 : Mat A K) : Vec A K :=
  if use_eigs A W0 && decide (K > 2) then fun k => A.abs (eigs_gen (rescaleW A W0) k)
  else uniformPi A K

/-- Lines 94-97, the E-step. -/
def eStep (A : Arith) {K : ℕ} (N0 : Mat A K) (pi : Vec A K) : Mat A K :=
  sp_mat A (n_locations A N0)
    (List.zipWith (fun v p => A.div v (A.add (pi p.1) (pi p.2))) (nij A N0) (n_locations A N0))

/-- Lines 100-106: `rowsums` accumulated over the stored entries of `N`, then
`rowsums += b * pi`. -/
def rowsums (A : Arith) {K : ℕ} (N : Mat A K) (b : A.R) (pi : Vec A K) : Vec A K :=
  fun k =>
    A.add
      ((nonzeros A N).foldl
        (fun rs p => Function.update rs p.1 (A.add (rs p.1) (A.mul (N p.1 p.2) (pi p.1))))
        (fun _ => A.zero) k)
      (A.mul b (pi k))

/-- Line 107: `res = abs(numer - rowsums)`. -/
def res (A : Arith) {K : ℕ} (numer : Vec A K) (N : Mat A K) (b : A.R) (pi : Vec A K) :
    Vec A K :=
  fun k => A.abs (A.sub (numer k) (rowsums A N b pi k))

/-- Lines 108-115: the scan that clears `converged` and breaks at the first
`res(k) > epsilon`. -/
def scanRes (A : Arith) {K : ℕ} (res : Vec A K) (epsilon : A.R) : List (Fin K) → Bool
  | [] => true
  | k :: ks => if A.gt (res k) epsilon then false else scanRes A res epsilon ks

/-- Lines 99-115: the convergence test of one round. -/
def checkConverged (A : Arith) {K : ℕ} (numer : Vec A K) (N : Mat A K) (b epsilon : A.R)
    (pi : Vec A K) : Bool :=
  scanRes A (res A numer N b pi) epsilon (List.finRange K)

/-- Line 118: `denom = sum(N, 1) + b`. -/
def denom (A : Arith) {K : ℕ} (N : Mat A K) (b : A.R) : Vec A K :=
  fun k => A.add (sum1 A N k) b

/-- Lines 118-119, the M-step: `pi = numer / denom`. -/
def mStep (A : Arith) {K : ℕ} (numer : Vec A K) (N : Mat A K) (b : A.R) : Vec A K :=
  fun k => A.div (numer k) (denom A N b k)

/-- The variables the loop reads and writes, with a count of the executions of
its body. -/
structure LoopState (A : Arith) (K : ℕ) where
  iter : Int
  converged : Bool
  pi : Vec A K
  rounds : ℕ

/-- Lines 92-119: one execution of the loop body. -/
def loopBody (A : Arith) {K : ℕ} (N0 : Mat A K) (numer : Vec A K) (b epsilon : A.R)
    (s : LoopState A K) : LoopState A K :=
  { iter := s.iter
    converged := checkConverged A numer (eStep A N0 s.pi) b epsilon s.pi
    pi := mStep A numer (eStep A N0 s.pi) b
    rounds := s.rounds + 1 }

/-- Line 90: `while (iter++ < maxit && !converged) body`. -/
def whileLoop (A : Arith) {K : ℕ} (N0 : Mat A K) (numer : Vec A K) (b epsilon : A.R)
    (maxit : Int) : ℕ → LoopState A K → Option (LoopState A K)
  | 0, _ => none
  | fuel + 1, s =>
    if decide (s.iter < maxit) && !s.converged then
      whileLoop A N0 numer b epsilon maxit fuel
        (loopBody A N0 numer b epsilon { s with iter := wrap32 (s.iter + 1) })
    else some { s with iter := wrap32 (s.iter + 1) }

/-- Line 123: `pi /= sum(pi)`. -/
def normalize (A : Arith) {K : ℕ} (pi : Vec A K) : Vec A K :=
  fun k => A.div (pi k) (sumVec A pi)

/-- The returned list, with the count of executed loop bodies and the value of
`pi` before line 123. -/
structure Result (A : Arith) (K : ℕ) where
  pi : Vec A K
  iters : Int
  converged : Bool
  rounds : ℕ
  rawPi : Vec A K

/-- The whole function, lines 22-125, with the loop given `fuel` steps. -/
def BT_EM_arma_fuel (A : Arith) {K : ℕ} (eigs_gen : Mat A K → Vec A K) (W : Mat A K)
    (a b : A.R) (maxit : Int) (epsilon : A.R) (fuel : ℕ) : Option (Result A K) :=
  match whileLoop A (initN A (maskDiag A W)) (numer A (maskDiag A W) a) b epsilon maxit fuel
      { iter := 0, converged := false, pi := initPi A eigs_gen (maskDiag A W), rounds := 0 } with
  | none => none
  | some s =>
    some { pi := normalize A s.pi
           iters := wrap32 (s.iter - 1)
           converged := s.converged
           rounds := s.rounds
           rawPi := s.pi }

/-- `BT_EM_arma(W, a, b, maxit, epsilon)` with the fuel the loop needs. -/
def BT_EM_arma (A : Arith) {K : ℕ} (eigs_gen : Mat A K → Vec A K) (W : Mat A K)
    (a b : A.R) (maxit : Int) (epsilon : A.R) : Option (Result A K) :=
  BT_EM_arma_fuel A eigs_gen W a b maxit epsilon (maxit.toNat + 1)

/-- The value of `pi` after `n` executions of the loop body from `pi0`. -/
def piSeq (A : Arith) {K : ℕ} (N0 : Mat A K) (numer : Vec A K) (b : A.R) (pi0 : Vec A K) :
    ℕ → Vec A K
  | 0 => pi0
  | n + 1 => mStep A numer (eStep A N0 (piSeq A N0 numer b pi0 n)) b

/-- The outcome of the convergence test computed in round `n + 1`. -/
def testRound (A : Arith) {K : ℕ} (N0 : Mat A K) (numer : Vec A K) (b epsilon : A.R)
    (pi0 : Vec A K) (n : ℕ) : Bool :=
  checkConverged A numer (eStep A N0 (piSeq A N0 numer b pi0 n)) b epsilon
    (piSeq A N0 numer b pi0 n)

end G

/-! ## A model of IEEE-754 binary64

Finite values are the rationals a `double` can hold, with one unsigned zero;
every operation on finite operands rounds the exact result to nearest, ties to
even, with gradual underflow and overflow to infinity. -/

/-- The values of a `double`. -/
inductive Dbl where
  | fin (q : ℚ) : Dbl
  | pinf : Dbl
  | ninf : Dbl
  | nan : Dbl

/-- Rounding to an integer, ties to even. -/
def roundHalfEven (m : ℚ) : ℤ :=
  if m - ⌊m⌋ < 1 / 2 then ⌊m⌋
  else if 1 / 2 < m - ⌊m⌋ then ⌊m⌋ + 1
  else if ⌊m⌋ % 2 = 0 then ⌊m⌋ else ⌊m⌋ + 1

/-- The `double` nearest to the exact value `x`: 53 significant bits, least
exponent `-1022`, overflow at `2 ^ 1024`. -/
def fl (x : ℚ) : Dbl :=
  if x = 0 then Dbl.fin 0
  else if (2 : ℚ) ^ (1024 : ℤ)
      ≤ (roundHalfEven (|x| / (2 : ℚ) ^ (max (Int.log 2 |x|) (-1022) - 52)) : ℚ)
        * (2 : ℚ) ^ (max (Int.log 2 |x|) (-1022) - 52) then
    (if 0 < x then Dbl.pinf else Dbl.ninf)
  else
    Dbl.fin ((if 0 < x then 1 else -1)
      * ((roundHalfEven (|x| / (2 : ℚ) ^ (max (Int.log 2 |x|) (-1022) - 52)) : ℚ)
        * (2 : ℚ) ^ (max (Int.log 2 |x|) (-1022) - 52)))

namespace Dbl

/-- Negation. -/
def neg : Dbl → Dbl
  | fin x => fin (-x)
  | pinf => ninf
  | ninf => pinf
  | nan => nan

/-- Addition. -/
def add : Dbl → Dbl → Dbl
  | fin x, fin y => fl (x + y)
  | nan, _ => nan
  | _, nan => nan
  | pinf, ninf => nan
  | ninf, pinf => nan
  | pinf, _ => pinf
  | _, pinf => pinf
  | ninf, _ => ninf
  | _, ninf => ninf

/-- Subtraction. -/
def sub (x y : Dbl) : Dbl := add x (neg y)

/-- Multiplication. -/
def mul : Dbl → Dbl → Dbl
  | fin x, fin y => fl (x * y)
  | nan, _ => nan
  | _, nan => nan
  | fin x, pinf => if x = 0 then nan else if 0 < x then pinf else ninf
  | fin x, ninf => if x = 0 then nan else if 0 < x then ninf else pinf
  | pinf, fin y => if y = 0 then nan else if 0 < y then pinf else ninf
  | ninf, fin y => if y = 0 then nan else if 0 < y then ninf else pinf
  | pinf, pinf => pinf
  | ninf, ninf => pinf
  | pinf, ninf => ninf
  | ninf, pinf => ninf

/-- Division. -/
def div : Dbl → Dbl → Dbl
  | fin x, fin y =>
    if y = 0 then (if x = 0 then nan else if 0 < x then pinf else ninf) else fl (x / y)
  | nan, _ => nan
  | _, nan => nan
  | fin _, pinf => fin 0
  | fin _, ninf => fin 0
  | pinf, fin y => if 0 ≤ y then pinf else ninf
  | ninf, fin y => if 0 ≤ y then ninf else pinf
  | pinf, pinf => nan
  | pinf, ninf => nan
  | ninf, pinf => nan
  | ninf, ninf => nan

/-- Absolute value. -/
def abs : Dbl → Dbl
  | fin x => fin |x|
  | pinf => pinf
  | ninf => pinf
  | nan => nan

/-- The comparison `x > y`, false whenever an operand is NaN. -/
def gt : Dbl → Dbl → Bool
  | fin x, fin y => decide (y < x)
  | pinf, fin _ => true
  | pinf, ninf => true
  | fin _, ninf => true
  | _, _ => false

/-- The comparison `x <= y`, false whenever an operand is NaN. -/
def le : Dbl → Dbl → Bool
  | fin x, fin y => decide (x ≤ y)
  | ninf, fin _ => true
  | ninf, ninf => true
  | ninf, pinf => true
  | fin _, pinf => true
  | pinf, pinf => true
  | _, _ => false

/-- The comparison `x == 0`. -/
def isZero : Dbl → Bool
  | fin x => decide (x = 0)
  | _ => false

end Dbl

/-- IEEE-754 binary64 as an arithmetic for the code. -/
def binary64 : Arith :=
  { R := Dbl
    zero := Dbl.fin 0
    one := Dbl.fin 1
    ofNat := fun n => fl n
    add := Dbl.add
    sub := Dbl.sub
    mul := Dbl.mul
    div := Dbl.div
    abs := Dbl.abs
    gt := Dbl.gt
    isZero := Dbl.isZero }

/-! ## Concrete inputs used in examples -/

/-- A single item with nothing stored, as a `binary64` matrix. -/
def lone : G.Mat binary64 1 := fun _ _ => Dbl.fin 0

/-- A stand-in for the external eigen-solver in `binary64`: the all-ones
vector. -/
def unitEigsD (K : ℕ) : G.Mat binary64 K → G.Vec binary64 K := fun _ _ => Dbl.fin 1


/-- A stand-in for the external eigen-solver: it returns the all-ones vector. -/
def unitEigs (K : ℕ) : Mat K → Vec K := fun _ _ => 1

/-- The 3-item comparison graph of the specification's concrete scenario:
`W[0,1]=5, W[1,0]=2, W[1,2]=3, W[2,1]=4, W[0,2]=1, W[2,0]=6`. -/
def specGraph : Mat 3 := ![![0, 5, 1], ![2, 0, 3], ![6, 4, 0]]

/-- Two items that were never compared. -/
def noComparisons : Mat 2 := ![![0, 0], ![0, 0]]

/-- Two items, item 0 won once against item 1. -/
def oneWin : Mat 2 := ![![0, 1], ![0, 0]]

/-- The loop state at the start of the first round on `specGraph` when the
eigen-solver is `unitEigs 3`. -/
def firstRound3 : LoopState 3 :=
  { iter := 1, converged := false, pi := fun _ => 1, rounds := 0 }

/-- A single item whose only entry is a self-comparison count of 7. -/
def singleItem : Mat 1 := fun _ _ => 7

/-- The un-normalised `pi` after the first round on `specGraph` from the
all-ones start with `a = 1`, `b = 1`. -/
def rawAfterRound1 : Vec 3 := ![3 / 4, 5 / 8, 5 / 4]

/-! ## Sparse-matrix bookkeeping -/

theorem mem_positions {K : ℕ} (p : Fin K × Fin K) : p ∈ positions K := by
  unfold positions
  simp only [List.mem_flatMap, List.mem_map, List.mem_finRange, true_and]
  exact ⟨p.2, p.1, rfl⟩

theorem mem_nonzeros {K : ℕ} (M : Mat K) (p : Fin K × Fin K) :
    p ∈ nonzeros M ↔ M p.1 p.2 ≠ 0 := by
  simp [nonzeros, mem_positions]

theorem zipWith_map_self {α β γ : Type} (f : β → α → γ) (g : α → β) (l : List α) :
    List.zipWith f (l.map g) l = l.map fun x => f (g x) x := by
  induction l with
  | nil => rfl
  | cons x xs ih => simp [ih]

theorem find_zip_map {α β : Type} [DecidableEq α] (g : α → β) (l : List α) (p : α) :
    (l.zip (l.map g)).find? (fun e => e.1 = p) = if p ∈ l then some (p, g p) else none := by
  induction l with
  | nil => simp
  | cons x xs ih =>
    by_cases h : x = p
    · subst h; simp
    · have h2 : ¬ p = x := fun e => h e.symm
      simp [List.find?_cons, h, h2, ih]

theorem sp_mat_map {K : ℕ} (locs : List (Fin K × Fin K)) (g : Fin K × Fin K → ℚ)
    (i j : Fin K) :
    sp_mat locs (locs.map g) i j = if (i, j) ∈ locs then g (i, j) else 0 := by
  unfold sp_mat
  rw [find_zip_map]
  split_ifs <;> rfl

theorem eStep_apply {K : ℕ} (N0 : Mat K) (pi : Vec K) (i j : Fin K) :
    eStep N0 pi i j = N0 i j / (pi i + pi j) := by
  unfold eStep eValues nij n_locations
  rw [zipWith_map_self, sp_mat_map]
  split_ifs with h
  · rfl
  · have : N0 i j = 0 := by
      by_contra hne
      exact h ((mem_nonzeros N0 (i, j)).2 hne)
    simp [this]

theorem rescaleW_apply {K : ℕ} (W0 : Mat K) (i j : Fin K) :
    rescaleW W0 i j = W0 i j / sum0 W0 i := by
  unfold rescaleW
  rw [sp_mat_map]
  split_ifs with h
  · simp [Wcolsum, div_eq_mul_inv]
  · have : W0 i j = 0 := by
      by_contra hne
      exact h ((mem_nonzeros W0 (i, j)).2 hne)
    simp [this]

theorem foldl_update_apply {K : ℕ} (g : Fin K × Fin K → ℚ) (l : List (Fin K × Fin K))
    (init : Vec K) (k : Fin K) :
    l.foldl (fun rs p => Function.update rs p.1 (rs p.1 + g p)) init k
      = init k + (l.map fun p => if p.1 = k then g p else 0).sum := by
  induction l generalizing init with
  | nil => simp
  | cons x xs ih =>
    rw [List.foldl_cons, ih]
    by_cases h : x.1 = k
    · subst h; simp [add_assoc]
    · have h2 : k ≠ x.1 := fun e => h e.symm
      simp [h, Function.update_noteq h2]

theorem sum_map_filter {α : Type} (l : List α) (p : α → Bool) (g : α → ℚ) :
    ((l.filter p).map g).sum = (l.map fun x => if p x then g x else 0).sum := by
  induction l with
  | nil => rfl
  | cons x xs ih =>
    by_cases h : p x <;> simp [List.filter_cons, h, ih]

theorem sum_flatMap_col {K : ℕ} (g : Fin K × Fin K → ℚ) (cs : List (Fin K)) :
    ((cs.flatMap fun c => (List.finRange K).map fun r => (r, c)).map g).sum
      = (cs.map fun c => ∑ r, g (r, c)).sum := by
  induction cs with
  | nil => rfl
  | cons c cs ih =>
    simp only [List.flatMap_cons, List.map_append, List.sum_append, List.map_cons,
      List.sum_cons, ih]
    congr 1
    rw [Fin.sum_univ_def, List.map_map]
    rfl

theorem sum_positions {K : ℕ} (g : Fin K × Fin K → ℚ) :
    ((positions K).map g).sum = ∑ c, ∑ r, g (r, c) := by
  unfold positions
  rw [sum_flatMap_col, Fin.sum_univ_def]

theorem accumRowsums_apply {K : ℕ} (N : Mat K) (pi : Vec K) (k : Fin K) :
    accumRowsums N pi k = (∑ j, N k j) * pi k := by
  unfold accumRowsums nonzeros
  rw [foldl_update_apply (fun p => N p.1 p.2 * pi p.1)]
  rw [sum_map_filter, sum_positions, Finset.sum_mul]
  simp only [zero_add]
  apply Finset.sum_congr rfl
  intro c _
  rw [Finset.sum_eq_single k]
  · by_cases h : N k c = 0 <;> simp [h]
  · intro r _ hr
    simp [hr]
  · simp

/-! ## The loop -/

theorem wrap32_id (x : Int) (h1 : -2147483648 ≤ x) (h2 : x < 2147483648) : wrap32 x = x := by
  unfold wrap32; omega

theorem wrap32_succ_pred (x : Int) (h1 : -2147483648 ≤ x) (h2 : x < 2147483648) :
    wrap32 (wrap32 (x + 1) - 1) = x := by
  unfold wrap32; omega

theorem piSeq_emRound {K : ℕ} (N0 : Mat K) (numer : Vec K) (b : ℚ) (pi0 : Vec K) (n : ℕ) :
    piSeq N0 numer b (emRound N0 numer b pi0) n = piSeq N0 numer b pi0 (n + 1) := by
  induction n with
  | zero => rfl
  | succ n ih => simp only [piSeq, ih]

theorem testRound_emRound {K : ℕ} (N0 : Mat K) (numer : Vec K) (b epsilon : ℚ) (pi0 : Vec K)
    (n : ℕ) :
    testRound N0 numer b epsilon (emRound N0 numer b pi0) n
      = testRound N0 numer b epsilon pi0 (n + 1) := by
  unfold testRound
  rw [piSeq_emRound]

theorem whileLoop_exit {K : ℕ} (N0 : Mat K) (numer : Vec K) (b epsilon : ℚ) (maxit : Int)
    (fuel : ℕ) (s : LoopState K) (h : ¬ s.iter < maxit ∨ s.converged = true) :
    whileLoop N0 numer b epsilon maxit (fuel + 1) s
      = some { s with iter := wrap32 (s.iter + 1) } := by
  rcases h with h | h <;> simp [whileLoop, h]

theorem whileLoop_enter {K : ℕ} (N0 : Mat K) (numer : Vec K) (b epsilon : ℚ) (maxit : Int)
    (fuel : ℕ) (s : LoopState K) (h1 : s.iter < maxit) (h2 : s.converged = false) :
    whileLoop N0 numer b epsilon maxit (fuel + 1) s
      = whileLoop N0 numer b epsilon maxit fuel
          (loopBody N0 numer b epsilon { s with iter := wrap32 (s.iter + 1) }) := by
  simp [whileLoop, h1, h2]

/-- A run in which no convergence test passes executes all remaining rounds. -/
theorem whileLoop_run {K : ℕ} (N0 : Mat K) (numer : Vec K) (b epsilon : ℚ) (maxit : Int)
    (hmax : maxit < 2147483648) (m : ℕ) :
    ∀ (fuel : ℕ) (s : LoopState K), m < fuel → s.iter + m = maxit → -2147483648 ≤ s.iter →
      s.converged = false →
      (∀ j, j < m → testRound N0 numer b epsilon s.pi j = false) →
      whileLoop N0 numer b epsilon maxit fuel s
        = some { iter := wrap32 (maxit + 1), converged := false,
                 pi := piSeq N0 numer b s.pi m, rounds := s.rounds + m } := by
  induction m with
  | zero =>
    intro fuel s hf hi _ hc _
    obtain ⟨f, rfl⟩ : ∃ f, fuel = f + 1 := ⟨fuel - 1, by omega⟩
    rw [whileLoop_exit _ _ _ _ _ _ _ (Or.inl (by simp at hi; omega))]
    simp at hi
    cases s
    simp_all [piSeq]
  | succ m ih =>
    intro fuel s hf hi hlo hc ht
    obtain ⟨f, rfl⟩ : ∃ f, fuel = f + 1 := ⟨fuel - 1, by omega⟩
    have hlt : s.iter < maxit := by push_cast at hi; omega
    rw [whileLoop_enter _ _ _ _ _ _ _ hlt hc]
    have hw : wrap32 (s.iter + 1) = s.iter + 1 := wrap32_id _ (by omega) (by omega)
    have h0 := ht 0 (by omega)
    rw [ih f _ (by omega)]
    · simp only [loopBody, Option.some.injEq, LoopState.mk.injEq, true_and]
      exact ⟨piSeq_emRound _ _ _ _ _, by omega⟩
    · simp only [loopBody, hw]; push_cast at hi; omega
    · simp only [loopBody, hw]; omega
    · exact h0
    · intro j hj
      have := ht (j + 1) (by omega)
      rw [← testRound_emRound] at this
      exact this

/-- A run whose first passing convergence test is in round `j + 1` stops after
that round. -/
theorem whileLoop_stop {K : ℕ} (N0 : Mat K) (numer : Vec K) (b epsilon : ℚ) (maxit : Int)
    (hmax : maxit < 2147483648) (j : ℕ) :
    ∀ (fuel : ℕ) (s : LoopState K), j + 1 < fuel → s.iter + j < maxit → -2147483648 ≤ s.iter →
      s.converged = false →
      (∀ i, i < j → testRound N0 numer b epsilon s.pi i = false) →
      testRound N0 numer b epsilon s.pi j = true →
      whileLoop N0 numer b epsilon maxit fuel s
        = some { iter := wrap32 (s.iter + j + 2), converged := true,
                 pi := piSeq N0 numer b s.pi (j + 1), rounds := s.rounds + (j + 1) } := by
  induction j with
  | zero =>
    intro fuel s hf hi hlo hc _ ht
    obtain ⟨f, rfl⟩ : ∃ f, fuel = f + 2 := ⟨fuel - 2, by omega⟩
    have hlt : s.iter < maxit := by simpa using hi
    have hw : wrap32 (s.iter + 1) = s.iter + 1 := wrap32_id _ (by omega) (by omega)
    rw [whileLoop_enter _ _ _ _ _ _ _ hlt hc, whileLoop_exit _ _ _ _ _ _ _ (Or.inr ht)]
    have hpi : mStep numer (eStep N0 s.pi) b = piSeq N0 numer b s.pi (0 + 1) := rfl
    have hcc : checkConverged numer (eStep N0 s.pi) b epsilon s.pi = true := ht
    simp only [loopBody, hw, hpi, hcc, Option.some.injEq, LoopState.mk.injEq, true_and, and_true]
    congr 1
    push_cast
    ring
  | succ j ih =>
    intro fuel s hf hi hlo hc hfalse ht
    obtain ⟨f, rfl⟩ : ∃ f, fuel = f + 1 := ⟨fuel - 1, by omega⟩
    have hlt : s.iter < maxit := by push_cast at hi; omega
    rw [whileLoop_enter _ _ _ _ _ _ _ hlt hc]
    have hw : wrap32 (s.iter + 1) = s.iter + 1 := wrap32_id _ (by omega) (by omega)
    have h0 := hfalse 0 (by omega)
    rw [ih f _ (by omega)]
    · simp only [loopBody, hw, Option.some.injEq, LoopState.mk.injEq, true_and]
      refine ⟨?_, piSeq_emRound _ _ _ _ _, by omega⟩
      congr 1
      push_cast
      ring
    · simp only [loopBody, hw]; push_cast at hi; omega
    · simp only [loopBody, hw]; omega
    · exact h0
    · intro i hi2
      have := hfalse (i + 1) (by omega)
      rw [← testRound_emRound] at this
      exact this
    · have := ht
      rw [← testRound_emRound] at this
      exact this

theorem first_pass (test : ℕ → Bool) (m : ℕ) :
    (∀ j, j < m → test j = false) ∨
      ∃ j, j < m ∧ test j = true ∧ ∀ i, i < j → test i = false := by
  by_cases h : ∃ j, j < m ∧ test j = true
  · right
    refine ⟨Nat.find h, (Nat.find_spec h).1, (Nat.find_spec h).2, ?_⟩
    intro i hi
    have := Nat.find_min h hi
    simp only [not_and, Bool.not_eq_true] at this
    exact this (lt_trans hi (Nat.find_spec h).1)
  · left
    intro j hj
    by_contra hne
    exact h ⟨j, hj, by simpa using hne⟩

/-- The call when no convergence test passes within `maxit` rounds. -/
theorem runFrom_maxed {K : ℕ} (W0 : Mat K) (a b : ℚ) (maxit : Int) (epsilon : ℚ) (pi0 : Vec K)
    (h0 : 0 ≤ maxit) (hmax : maxit < 2147483648)
    (hno : ∀ j, j < maxit.toNat → testRound (initN W0) (numer W0 a) b epsilon pi0 j = false)
    (fuel : ℕ) (hfuel : maxit.toNat < fuel) :
    runFrom W0 a b maxit epsilon pi0 fuel
      = some { pi := normalize (piSeq (initN W0) (numer W0 a) b pi0 maxit.toNat)
               iters := maxit
               converged := false
               rounds := maxit.toNat
               rawPi := piSeq (initN W0) (numer W0 a) b pi0 maxit.toNat } := by
  have hrun := whileLoop_run (initN W0) (numer W0 a) b epsilon maxit hmax maxit.toNat
    fuel { iter := 0, converged := false, pi := pi0, rounds := 0 }
    hfuel (by simp only [Int.toNat_of_nonneg h0, zero_add]) (by norm_num) rfl hno
  have hw := wrap32_succ_pred maxit (by omega) hmax
  unfold runFrom
  rw [hrun]
  simp only [hw, zero_add]

/-- The call when the first passing convergence test is the one of round
`j + 1`. -/
theorem runFrom_stopped {K : ℕ} (W0 : Mat K) (a b : ℚ) (maxit : Int) (epsilon : ℚ)
    (pi0 : Vec K) (hmax : maxit < 2147483648) (j : ℕ) (hj : j < maxit.toNat)
    (hfalse : ∀ i, i < j → testRound (initN W0) (numer W0 a) b epsilon pi0 i = false)
    (ht : testRound (initN W0) (numer W0 a) b epsilon pi0 j = true)
    (fuel : ℕ) (hfuel : maxit.toNat < fuel) :
    runFrom W0 a b maxit epsilon pi0 fuel
      = some { pi := normalize (piSeq (initN W0) (numer W0 a) b pi0 (j + 1))
               iters := (j : Int) + 1
               converged := true
               rounds := j + 1
               rawPi := piSeq (initN W0) (numer W0 a) b pi0 (j + 1) } := by
  have hjm : (j : Int) < maxit := by omega
  have hrun := whileLoop_stop (initN W0) (numer W0 a) b epsilon maxit hmax j
    fuel { iter := 0, converged := false, pi := pi0, rounds := 0 }
    (by omega) (by simp only [zero_add]; exact hjm) (by norm_num) rfl hfalse ht
  have hw : wrap32 (wrap32 ((j : Int) + 2) - 1) = (j : Int) + 1 := by
    unfold wrap32; omega
  unfold runFrom
  rw [hrun]
  simp only [hw, zero_add]

theorem scanRes_iff {K : ℕ} (res : Vec K) (epsilon : ℚ) (l : List (Fin K)) :
    scanRes res epsilon l = true ↔ ∀ k, k ∈ l → res k ≤ epsilon := by
  induction l with
  | nil => simp [scanRes]
  | cons x xs ih =>
    unfold scanRes
    split_ifs with h
    · simp only [Bool.false_eq_true, List.mem_cons, forall_eq_or_imp, false_iff, not_and]
      intro hx
      exact absurd hx (not_le.2 h)
    · rw [ih]
      simp only [List.mem_cons, forall_eq_or_imp]
      exact ⟨fun hx => ⟨not_lt.1 h, hx⟩, fun hx => hx.2⟩

theorem rowsums_apply {K : ℕ} (N : Mat K) (b : ℚ) (pi : Vec K) (k : Fin K) :
    rowsums N b pi k = (∑ j, N k j) * pi k + b * pi k := by
  unfold rowsums
  rw [accumRowsums_apply]

theorem checkConverged_iff {K : ℕ} (numer : Vec K) (N : Mat K) (b epsilon : ℚ) (pi : Vec K) :
    checkConverged numer N b epsilon pi = true
      ↔ ∀ k, |numer k - ((∑ j, N k j) * pi k + b * pi k)| ≤ epsilon := by
  unfold checkConverged
  rw [scanRes_iff]
  simp only [List.mem_finRange, true_implies, res, rowsums_apply]

theorem emRound_apply {K : ℕ} (N0 : Mat K) (numer : Vec K) (b : ℚ) (pi : Vec K) (k : Fin K) :
    emRound N0 numer b pi k = numer k / ((∑ j, N0 k j / (pi k + pi j)) + b) := by
  simp only [emRound, mStep, denom, sum1, eStep_apply]

/-- Every call with `0 ≤ maxit` returns, after some number `n ≤ maxit` of
rounds; the flag tells which of the two exits was taken. -/
theorem runFrom_cases {K : ℕ} (W0 : Mat K) (a b : ℚ) (maxit : Int) (epsilon : ℚ) (pi0 : Vec K)
    (h0 : 0 ≤ maxit) (hmax : maxit < 2147483648) :
    ∃ (n : ℕ) (c : Bool),
      (∀ fuel, maxit.toNat < fuel → runFrom W0 a b maxit epsilon pi0 fuel
        = some { pi := normalize (piSeq (initN W0) (numer W0 a) b pi0 n)
                 iters := (n : Int)
                 converged := c
                 rounds := n
                 rawPi := piSeq (initN W0) (numer W0 a) b pi0 n }) ∧
      (n : Int) ≤ maxit ∧
      (c = false → (n : Int) = maxit ∧
        ∀ j, j < n → testRound (initN W0) (numer W0 a) b epsilon pi0 j = false) ∧
      (c = true → ∃ j, n = j + 1 ∧
        testRound (initN W0) (numer W0 a) b epsilon pi0 j = true ∧
        ∀ i, i < j → testRound (initN W0) (numer W0 a) b epsilon pi0 i = false) := by
  rcases first_pass (testRound (initN W0) (numer W0 a) b epsilon pi0) maxit.toNat with hno | hyes
  · refine ⟨maxit.toNat, false, ?_, ?_, ?_, ?_⟩
    · intro fuel hfuel
      rw [runFrom_maxed W0 a b maxit epsilon pi0 h0 hmax hno fuel hfuel,
        Int.toNat_of_nonneg h0]
    · omega
    · intro _
      exact ⟨Int.toNat_of_nonneg h0, hno⟩
    · intro h
      exact absurd h (by decide)
  · obtain ⟨j, hj, ht, hfalse⟩ := hyes
    refine ⟨j + 1, true, ?_, ?_, ?_, ?_⟩
    · intro fuel hfuel
      rw [runFrom_stopped W0 a b maxit epsilon pi0 hmax j hj hfalse ht fuel hfuel]
      simp only [Nat.cast_add, Nat.cast_one]
    · omega
    · intro h
      exact absurd h (by decide)
    · intro _
      exact ⟨j, rfl, ht, hfalse⟩

/-- A call with `maxit = 1` executes exactly one round. -/
theorem runFrom_one {K : ℕ} (W0 : Mat K) (a b epsilon : ℚ) (pi0 : Vec K) :
    ∃ c : Bool, runFrom W0 a b 1 epsilon pi0 ((1 : Int).toNat + 1)
      = some { pi := normalize (emRound (initN W0) (numer W0 a) b pi0)
               iters := 1
               converged := c
               rounds := 1
               rawPi := emRound (initN W0) (numer W0 a) b pi0 } := by
  obtain ⟨n, c, hrun, hle, hf, ht⟩ :=
    runFrom_cases W0 a b 1 epsilon pi0 (by decide) (by decide)
  have hn : n = 1 := by
    cases c with
    | false => have := (hf rfl).1; omega
    | true =>
      obtain ⟨j, hj, _, _⟩ := ht rfl
      omega
  subst hn
  exact ⟨c, hrun _ (Nat.lt_succ_self _)⟩

/-! ## Claims -/

/-- C1. One execution of the loop body performs the Bradley-Terry EM update on
the diagonal-zeroed input `W0 = maskDiag W`: whenever `pi[i] + pi[j] ≠ 0` on
every non-zero position of `W0 + W0ᵀ`, the new `pi[k]` equals
`(rowSum(W0)[k] + a - 1) / (b + Σ_j (W0[k,j] + W0[j,k]) / (pi[k] + pi[j]))`.
Every divisor of the E-step (one per stored location) is then non-zero.  The
same update is the first round of the whole call, whichever start (`initPi`,
uniform or spectral) the current `pi` comes from: `numer` and `nij` are those
of `W0`, not of the rescaled matrix. -/
theorem em_round_update {K : ℕ} (eigs_gen : Mat K → Vec K) (W : Mat K) (a b epsilon : ℚ)
    (s : LoopState K)
    (hpi : ∀ i j, maskDiag W i j + maskDiag W j i ≠ 0 → s.pi i + s.pi j ≠ 0) (k : Fin K) :
    (loopBody (initN (maskDiag W)) (numer (maskDiag W) a) b epsilon s).pi k
        = ((∑ j, maskDiag W k j) + a - 1)
          / (b + ∑ j, (maskDiag W k j + maskDiag W j k) / (s.pi k + s.pi j)) ∧
    (∀ p, p ∈ n_locations (initN (maskDiag W)) → s.pi p.1 + s.pi p.2 ≠ 0) ∧
    (s.pi = initPi eigs_gen (maskDiag W) →
      ∃ r, BT_EM_arma eigs_gen W a b 1 epsilon = some r ∧ r.rounds = 1 ∧
        r.rawPi k = ((∑ j, maskDiag W k j) + a - 1)
          / (b + ∑ j, (maskDiag W k j + maskDiag W j k) / (s.pi k + s.pi j))) := by
  have hround : ∀ p : Vec K, emRound (initN (maskDiag W)) (numer (maskDiag W) a) b p k
      = ((∑ j, maskDiag W k j) + a - 1)
          / (b + ∑ j, (maskDiag W k j + maskDiag W j k) / (p k + p j)) := by
    intro p
    rw [emRound_apply]
    simp only [numer, sum1, initN, madd, t]
    rw [add_comm b, add_sub_assoc]
  refine ⟨hround s.pi, ?_, ?_⟩
  · intro p hp
    exact hpi p.1 p.2 ((mem_nonzeros _ p).1 hp)
  · intro hs
    obtain ⟨c, hrun⟩ := runFrom_one (maskDiag W) a b epsilon (initPi eigs_gen (maskDiag W))
    refine ⟨_, hrun, rfl, ?_⟩
    rw [hs]
    exact hround _

/-- C2. For every input and every `maxit ≥ 0` (an `int`), the call returns (with
the same result for any larger fuel) and the reported `iters` equals the number
of executions of the loop body, with `0 ≤ iters ≤ maxit`. -/
theorem iters_counts_rounds {K : ℕ} (eigs_gen : Mat K → Vec K) (W : Mat K) (a b : ℚ)
    (maxit : Int) (epsilon : ℚ) (h0 : 0 ≤ maxit) (hmax : maxit < 2147483648) :
    ∃ r, BT_EM_arma eigs_gen W a b maxit epsilon = some r ∧
      (∀ fuel, maxit.toNat < fuel →
        BT_EM_arma_fuel eigs_gen W a b maxit epsilon fuel = some r) ∧
      r.iters = (r.rounds : Int) ∧ 0 ≤ r.iters ∧ r.iters ≤ maxit := by
  obtain ⟨n, c, hrun, hle, _, _⟩ :=
    runFrom_cases (maskDiag W) a b maxit epsilon (initPi eigs_gen (maskDiag W)) h0 hmax
  exact ⟨_, hrun _ (Nat.lt_succ_self _), hrun, rfl, Int.natCast_nonneg n, hle⟩

/-- C3. With `test j` the outcome of the residual test of round `j + 1`:
`converged` is true iff the test passes in some round `j + 1 ≤ maxit`; if round
`j + 1` is the first whose test passes then it is the last round executed and
`iters = j + 1`; if no round up to `maxit` passes, `converged` is false and
`iters = maxit`. -/
theorem loop_exit_rule {K : ℕ} (eigs_gen : Mat K → Vec K) (W : Mat K) (a b : ℚ)
    (maxit : Int) (epsilon : ℚ) (h0 : 0 ≤ maxit) (hmax : maxit < 2147483648) :
    ∃ r, BT_EM_arma eigs_gen W a b maxit epsilon = some r ∧
      (r.converged = true ↔ ∃ j : ℕ, (j : Int) + 1 ≤ maxit ∧
        testRound (initN (maskDiag W)) (numer (maskDiag W) a) b epsilon
          (initPi eigs_gen (maskDiag W)) j = true) ∧
      (∀ j : ℕ, (j : Int) + 1 ≤ maxit →
        testRound (initN (maskDiag W)) (numer (maskDiag W) a) b epsilon
          (initPi eigs_gen (maskDiag W)) j = true →
        (∀ i, i < j → testRound (initN (maskDiag W)) (numer (maskDiag W) a) b epsilon
          (initPi eigs_gen (maskDiag W)) i = false) →
        r.converged = true ∧ r.iters = (j : Int) + 1 ∧ r.rounds = j + 1) ∧
      ((∀ j : ℕ, (j : Int) + 1 ≤ maxit →
        testRound (initN (maskDiag W)) (numer (maskDiag W) a) b epsilon
          (initPi eigs_gen (maskDiag W)) j = false) →
        r.converged = false ∧ r.iters = maxit ∧ (r.rounds : Int) = maxit) := by
  obtain ⟨n, c, hrun, hle, hf, ht⟩ :=
    runFrom_cases (maskDiag W) a b maxit epsilon (initPi eigs_gen (maskDiag W)) h0 hmax
  refine ⟨_, hrun _ (Nat.lt_succ_self _), ?_, ?_, ?_⟩
  · constructor
    · intro hc
      obtain ⟨j, hj, htj, _⟩ := ht hc
      exact ⟨j, by omega, htj⟩
    · rintro ⟨j, hj, htj⟩
      cases c with
      | true => rfl
      | false =>
        obtain ⟨hn, hall⟩ := hf rfl
        have := hall j (by omega)
        rw [htj] at this
        exact absurd this (by decide)
  · intro j hj htj hfirst
    cases c with
    | false =>
      obtain ⟨hn, hall⟩ := hf rfl
      have := hall j (by omega)
      rw [htj] at this
      exact absurd this (by decide)
    | true =>
      obtain ⟨j', hj', htj', hfirst'⟩ := ht rfl
      have hjj : j' = j := by
        rcases lt_trichotomy j' j with h | h | h
        · have := hfirst j' h
          rw [htj'] at this
          exact absurd this (by decide)
        · exact h
        · have := hfirst' j h
          rw [htj] at this
          exact absurd this (by decide)
      subst hjj
      subst hj'
      exact ⟨rfl, by simp only [Nat.cast_add, Nat.cast_one], rfl⟩
  · intro hall
    cases c with
    | false =>
      obtain ⟨hn, _⟩ := hf rfl
      exact ⟨rfl, hn, hn⟩
    | true =>
      obtain ⟨j, hj, htj, _⟩ := ht rfl
      have := hall j (by omega)
      rw [htj] at this
      exact absurd this (by decide)

/-- In exact arithmetic, in a round started with `pi`, with `N` the E-step
matrix of that round: `rowsums[k] = (Σ_j N[k,j]) * pi[k] + b * pi[k]`,
`res[k] = |numer[k] - rowsums[k]|`, and the convergence flag set by the round
is true iff `res[k] ≤ epsilon` for every `k`. -/
theorem convergence_test_exact {K : ℕ} (N0 : Mat K) (numer : Vec K) (b epsilon : ℚ)
    (s : LoopState K) :
    (∀ k, rowsums (eStep N0 s.pi) b s.pi k
        = (∑ j, eStep N0 s.pi k j) * s.pi k + b * s.pi k) ∧
    (∀ k, res numer (eStep N0 s.pi) b s.pi k
        = |numer k - rowsums (eStep N0 s.pi) b s.pi k|) ∧
    ((loopBody N0 numer b epsilon s).converged = true
        ↔ ∀ k, res numer (eStep N0 s.pi) b s.pi k ≤ epsilon) := by
  refine ⟨fun k => rowsums_apply _ _ _ k, fun k => rfl, ?_⟩
  show checkConverged numer (eStep N0 s.pi) b epsilon s.pi = true ↔ _
  unfold checkConverged
  rw [scanRes_iff]
  simp only [List.mem_finRange, true_implies]

theorem initPi_uniform_of_le {K : ℕ} (eigs_gen : Mat K → Vec K) (W0 : Mat K) (h : K ≤ 2) :
    initPi eigs_gen W0 = uniformPi K := by
  have : ¬ (K > 2) := by omega
  simp [initPi, chooseStart, this]

/-- Witness for C1: the first round on the specification's 3-item graph, from
the spectral start returned by `unitEigs 3`. -/
theorem em_round_update_witness :
    (loopBody (initN (maskDiag specGraph)) (numer (maskDiag specGraph) 1) 1 (1 / 100)
        firstRound3).pi 0
        = ((∑ j, maskDiag specGraph 0 j) + 1 - 1)
          / (1 + ∑ j, (maskDiag specGraph 0 j + maskDiag specGraph j 0)
              / (firstRound3.pi 0 + firstRound3.pi j)) ∧
    (∀ p, p ∈ n_locations (initN (maskDiag specGraph)) →
      firstRound3.pi p.1 + firstRound3.pi p.2 ≠ 0) ∧
    (firstRound3.pi = initPi (unitEigs 3) (maskDiag specGraph) →
      ∃ r, BT_EM_arma (unitEigs 3) specGraph 1 1 1 (1 / 100) = some r ∧ r.rounds = 1 ∧
        r.rawPi 0 = ((∑ j, maskDiag specGraph 0 j) + 1 - 1)
          / (1 + ∑ j, (maskDiag specGraph 0 j + maskDiag specGraph j 0)
              / (firstRound3.pi 0 + firstRound3.pi j))) :=
  em_round_update (unitEigs 3) specGraph 1 1 (1 / 100) firstRound3
    (by intro i j _; norm_num [firstRound3]) 0

/-- Witness for C2: the specification's scenario with `maxit = 100`. -/
theorem iters_counts_rounds_witness :
    ∃ r, BT_EM_arma (unitEigs 3) specGraph 1 1 100 (1 / 100) = some r ∧
      (∀ fuel, (100 : Int).toNat < fuel →
        BT_EM_arma_fuel (unitEigs 3) specGraph 1 1 100 (1 / 100) fuel = some r) ∧
      r.iters = (r.rounds : Int) ∧ 0 ≤ r.iters ∧ r.iters ≤ 100 :=
  iters_counts_rounds (unitEigs 3) specGraph 1 1 100 (1 / 100) (by decide) (by decide)


/-- Witness for C3: the specification's scenario with `maxit = 100`. -/
theorem loop_exit_rule_witness :
    ∃ r, BT_EM_arma (unitEigs 3) specGraph 1 1 100 (1 / 100) = some r ∧
      (r.converged = true ↔ ∃ j : ℕ, (j : Int) + 1 ≤ 100 ∧
        testRound (initN (maskDiag specGraph)) (numer (maskDiag specGraph) 1) 1 (1 / 100)
          (initPi (unitEigs 3) (maskDiag specGraph)) j = true) :=
  (loop_exit_rule (unitEigs 3) specGraph 1 1 100 (1 / 100) (by decide) (by decide)).imp
    fun _ h => ⟨h.1, h.2.1⟩

theorem normalize_sum {K : ℕ} (pi : Vec K) (h : ∑ k, pi k ≠ 0) : ∑ k, normalize pi k = 1 := by
  unfold normalize
  rw [← Finset.sum_div, div_self h]

/-- C5 (as claimed) fails: two items never compared, `a = 1`, `b = 1`, one
round.  `numer` is zero, the round sets `pi` to zero, and the returned vector
does not sum to 1. -/
theorem normalization_counterexample :
    ∃ r, BT_EM_arma (unitEigs 2) noComparisons 1 1 1 0 = some r ∧
      (∀ k, r.rawPi k = 0) ∧ ∑ k, r.pi k ≠ 1 := by
  obtain ⟨c, hrun⟩ :=
    runFrom_one (maskDiag noComparisons) 1 1 0 (initPi (unitEigs 2) (maskDiag noComparisons))
  have hraw : ∀ k, emRound (initN (maskDiag noComparisons)) (numer (maskDiag noComparisons) 1) 1
      (initPi (unitEigs 2) (maskDiag noComparisons)) k = 0 := by
    intro k
    rw [emRound_apply]
    have : numer (maskDiag noComparisons) 1 k = 0 := by
      fin_cases k <;> simp [numer, sum1, maskDiag, schur, noComparisons, Fin.sum_univ_two]
    rw [this, zero_div]
  refine ⟨_, hrun, hraw, ?_⟩
  simp [normalize, hraw]

/-- C5 (amended). Every call with `0 ≤ maxit` returns the final un-normalised
`pi` divided by its sum, and the returned `pi` sums to 1 whenever no division of
the run has a zero divisor: the E-step divisors at the stored locations and the
M-step denominators of every executed round, and the final `sum(pi)`. -/
theorem normalization_of_nonzero_sum {K : ℕ} (eigs_gen : Mat K → Vec K) (W : Mat K) (a b : ℚ)
    (maxit : Int) (epsilon : ℚ) (h0 : 0 ≤ maxit) (hmax : maxit < 2147483648) :
    ∃ r, BT_EM_arma eigs_gen W a b maxit epsilon = some r ∧
      (∀ k, r.pi k = r.rawPi k / ∑ j, r.rawPi j) ∧
      (divisorsNonzero (initN (maskDiag W)) (numer (maskDiag W) a) b
          (initPi eigs_gen (maskDiag W)) r.rounds →
        ∑ k, r.rawPi k ≠ 0 → ∑ k, r.pi k = 1) := by
  obtain ⟨n, c, hrun, _, _, _⟩ :=
    runFrom_cases (maskDiag W) a b maxit epsilon (initPi eigs_gen (maskDiag W)) h0 hmax
  exact ⟨_, hrun _ (Nat.lt_succ_self _), fun k => rfl, fun _ h => normalize_sum _ h⟩

theorem initPi_pos {K : ℕ} (eigs_gen : Mat K → Vec K) (W0 : Mat K)
    (hstart : ∀ M, chooseStart W0 = Start.spectral M → ∀ k, eigs_gen M k ≠ 0) (k : Fin K) :
    0 < initPi eigs_gen W0 k := by
  unfold initPi
  cases hc : chooseStart W0 with
  | uniform =>
    have hK : 0 < K := Fin.pos k
    simp only [uniformPi]
    positivity
  | spectral M =>
    exact abs_pos.2 (hstart M hc k)

theorem emRound_pos {K : ℕ} (N0 : Mat K) (numer : Vec K) (b : ℚ) (pi : Vec K)
    (hN : ∀ i j, 0 ≤ N0 i j) (hnum : ∀ k, 0 < numer k) (hb : 0 < b) (hpi : ∀ k, 0 < pi k)
    (k : Fin K) : 0 < emRound N0 numer b pi k := by
  rw [emRound_apply]
  apply div_pos (hnum k)
  have : 0 ≤ ∑ j, N0 k j / (pi k + pi j) :=
    Finset.sum_nonneg fun j _ => div_nonneg (hN k j) (add_pos (hpi k) (hpi j)).le
  linarith

theorem piSeq_pos {K : ℕ} (N0 : Mat K) (numer : Vec K) (b : ℚ) (pi0 : Vec K)
    (hN : ∀ i j, 0 ≤ N0 i j) (hnum : ∀ k, 0 < numer k) (hb : 0 < b) (hpi : ∀ k, 0 < pi0 k)
    (n : ℕ) : ∀ k, 0 < piSeq N0 numer b pi0 n k := by
  induction n with
  | zero => exact hpi
  | succ n ih => exact fun k => emRound_pos N0 numer b _ hN hnum hb ih k

theorem maskDiag_nonneg {K : ℕ} (W : Mat K) (hW : ∀ i j, 0 ≤ W i j) (i j : Fin K) :
    0 ≤ maskDiag W i j := by
  unfold maskDiag schur spec
  split_ifs
  · simp
  · simpa using hW i j

theorem use_eigs_iff {K : ℕ} (W0 : Mat K) : use_eigs W0 = true ↔ ∀ j, sum0 W0 j ≠ 0 := by
  simp [use_eigs]

theorem maskDiag_apply {K : ℕ} (W : Mat K) (i j : Fin K) :
    maskDiag W i j = if i = j then 0 else W i j := by
  unfold maskDiag schur spec
  split_ifs <;> simp

theorem sum_maskDiag_col {K : ℕ} (W : Mat K) (j : Fin K) :
    ∑ i, maskDiag W i j = ∑ i in Finset.univ.erase j, W i j := by
  have h0 : maskDiag W j j = 0 := by simp [maskDiag_apply]
  rw [← Finset.sum_erase Finset.univ (f := fun i => maskDiag W i j) h0]
  apply Finset.sum_congr rfl
  intro i hi
  have : i ≠ j := Finset.ne_of_mem_erase hi
  simp [maskDiag_apply, this]

/-- C7. The eigen-solver is given a matrix (the spectral start is selected) iff
`K > 2` and every column sum of the diagonal-zeroed `W` (the sum of the
off-diagonal entries of the column) is non-zero.  In that case the solver is
called on the rescaled matrix, the initial `pi` is the absolute value of what
it returns, and the call is the EM loop run from that vector.  Otherwise the
start is the uniform vector `pi[i] = 1/K` and the call is the EM loop run from
it, whatever the solver would return. -/
theorem spectral_guard {K : ℕ} (eigs_gen : Mat K → Vec K) (W : Mat K) :
    ((∃ M, chooseStart (maskDiag W) = Start.spectral M)
        ↔ (2 < K ∧ ∀ j, ∑ i in Finset.univ.erase j, W i j ≠ 0)) ∧
    ((2 < K ∧ ∀ j, ∑ i in Finset.univ.erase j, W i j ≠ 0) →
      chooseStart (maskDiag W) = Start.spectral (rescaleW (maskDiag W)) ∧
      (∀ i, initPi eigs_gen (maskDiag W) i = |eigs_gen (rescaleW (maskDiag W)) i|) ∧
      ∀ a b maxit epsilon, BT_EM_arma eigs_gen W a b maxit epsilon
        = runFrom (maskDiag W) a b maxit epsilon
            (fun i => |eigs_gen (rescaleW (maskDiag W)) i|) (maxit.toNat + 1)) ∧
    (¬ (2 < K ∧ ∀ j, ∑ i in Finset.univ.erase j, W i j ≠ 0) →
      chooseStart (maskDiag W) = Start.uniform ∧
      (∀ i, initPi eigs_gen (maskDiag W) i = 1 / (K : ℚ)) ∧
      ∀ a b maxit epsilon, BT_EM_arma eigs_gen W a b maxit epsilon
        = runFrom (maskDiag W) a b maxit epsilon (fun _ => 1 / (K : ℚ)) (maxit.toNat + 1)) := by
  have hg : (use_eigs (maskDiag W) && decide (K > 2)) = true
      ↔ (2 < K ∧ ∀ j, ∑ i in Finset.univ.erase j, W i j ≠ 0) := by
    rw [Bool.and_eq_true, use_eigs_iff, decide_eq_true_iff]
    simp only [sum0, sum_maskDiag_col]
    exact and_comm
  refine ⟨?_, ?_, ?_⟩
  · rw [← hg]
    unfold chooseStart
    split_ifs with h
    · exact ⟨fun _ => h, fun _ => ⟨_, rfl⟩⟩
    · constructor
      · rintro ⟨M, hM⟩
        exact absurd hM (by simp)
      · intro h2
        exact absurd h2 h
  · intro hy
    rw [← hg] at hy
    have hc : chooseStart (maskDiag W) = Start.spectral (rescaleW (maskDiag W)) := by
      unfold chooseStart
      rw [if_pos hy]
    have hi : initPi eigs_gen (maskDiag W)
        = fun i => |eigs_gen (rescaleW (maskDiag W)) i| := by
      unfold initPi
      rw [hc]
    refine ⟨hc, fun i => by rw [hi], ?_⟩
    intro a b maxit epsilon
    unfold BT_EM_arma BT_EM_arma_fuel
    simp only [hi]
  · intro hn
    rw [← hg] at hn
    have hc : chooseStart (maskDiag W) = Start.uniform := by
      unfold chooseStart
      rw [if_neg hn]
    have hi : initPi eigs_gen (maskDiag W) = fun _ => 1 / (K : ℚ) := by
      unfold initPi
      rw [hc]
      rfl
    refine ⟨hc, fun i => by rw [hi], ?_⟩
    intro a b maxit epsilon
    unfold BT_EM_arma BT_EM_arma_fuel
    simp only [hi]

/-- C8 (as claimed) fails at the claim's own witness. On the specification's
3-item graph the spectral path is taken (column sums 8, 9, 4), and the matrix
passed to the eigen-solver has entry `(0,1)` equal to `W[0,1] / colSum[0] = 5/8`,
not `W[0,1] / colSum[1] = 5/9`; its column 0 sums to `31/18`, not to 1. -/
theorem rescale_uses_row_index :
    chooseStart (maskDiag specGraph) = Start.spectral (rescaleW (maskDiag specGraph)) ∧
    (∀ j, sum0 (maskDiag specGraph) j = ![8, 9, 4] j) ∧
    rescaleW (maskDiag specGraph) 0 1 = 5 / 8 ∧
    maskDiag specGraph 0 1 / sum0 (maskDiag specGraph) 1 = 5 / 9 ∧
    sum0 (rescaleW (maskDiag specGraph)) 0 = 31 / 18 ∧
    rescaleW (maskDiag specGraph) 0 1 ≠ maskDiag specGraph 0 1 / sum0 (maskDiag specGraph) 1 ∧
    sum0 (rescaleW (maskDiag specGraph)) 0 ≠ 1 := by
  have hs : ∀ j, sum0 (maskDiag specGraph) j = ![8, 9, 4] j := by
    intro j
    fin_cases j <;>
      simp [sum0, maskDiag_apply, specGraph, Fin.sum_univ_three, Fin.ext_iff] <;> norm_num
  have hm : maskDiag specGraph = specGraph := by
    funext i j
    fin_cases i <;> fin_cases j <;> simp [maskDiag_apply, specGraph, Fin.ext_iff]
  have h01 : rescaleW (maskDiag specGraph) 0 1 = 5 / 8 := by
    rw [rescaleW_apply, hs, hm]
    simp [specGraph]
  have h59 : maskDiag specGraph 0 1 / sum0 (maskDiag specGraph) 1 = 5 / 9 := by
    rw [hs, hm]
    simp [specGraph]
  have hcol : sum0 (rescaleW (maskDiag specGraph)) 0 = 31 / 18 := by
    unfold sum0
    simp only [rescaleW_apply, hs, Fin.sum_univ_three]
    rw [hm]
    simp [specGraph]
    norm_num
  refine ⟨?_, hs, h01, h59, hcol, ?_, ?_⟩
  · unfold chooseStart
    rw [if_pos]
    rw [Bool.and_eq_true, use_eigs_iff]
    refine ⟨?_, by decide⟩
    intro j
    rw [hs]
    fin_cases j <;> simp
  · rw [h01, h59]
    norm_num
  · rw [hcol]
    norm_num

/-- C8 (amended). Whenever the spectral path is taken (`K > 2` and every column
sum of the diagonal-zeroed `W` non-zero), the matrix handed to the eigen-solver
is the diagonal-zeroed `W` with each stored entry multiplied by `1 / colSum` of
its row index: entry `(i,j)` equals `W[i,j] / colSum(W)[i]`, so row `i` is
scaled by `1 / colSum[i]` and sums to `rowSum[i] / colSum[i]`. -/
theorem spectral_matrix_rows {K : ℕ} (W : Mat K)
    (h : 2 < K ∧ ∀ j, sum0 (maskDiag W) j ≠ 0) :
    chooseStart (maskDiag W) = Start.spectral (rescaleW (maskDiag W)) ∧
    (∀ i j, rescaleW (maskDiag W) i j = maskDiag W i j * (1 / sum0 (maskDiag W) i)) ∧
    (∀ i j, rescaleW (maskDiag W) i j = maskDiag W i j / sum0 (maskDiag W) i) ∧
    (∀ i, sum1 (rescaleW (maskDiag W)) i = sum1 (maskDiag W) i / sum0 (maskDiag W) i) := by
  refine ⟨?_, ?_, fun i j => rescaleW_apply _ i j, ?_⟩
  · unfold chooseStart
    rw [if_pos]
    rw [Bool.and_eq_true, use_eigs_iff, decide_eq_true_iff]
    exact ⟨h.2, h.1⟩
  · intro i j
    rw [rescaleW_apply, mul_one_div]
  · intro i
    unfold sum1
    simp only [rescaleW_apply]
    rw [Finset.sum_div]

/-- Witness for C8 (amended): the specification's 3-item graph. -/
theorem spectral_matrix_rows_witness :
    chooseStart (maskDiag specGraph) = Start.spectral (rescaleW (maskDiag specGraph)) ∧
    (∀ i j, rescaleW (maskDiag specGraph) i j
      = maskDiag specGraph i j * (1 / sum0 (maskDiag specGraph) i)) ∧
    (∀ i j, rescaleW (maskDiag specGraph) i j
      = maskDiag specGraph i j / sum0 (maskDiag specGraph) i) ∧
    (∀ i, sum1 (rescaleW (maskDiag specGraph)) i
      = sum1 (maskDiag specGraph) i / sum0 (maskDiag specGraph) i) :=
  spectral_matrix_rows specGraph ⟨by decide, by
    intro j
    fin_cases j <;>
      simp [sum0, maskDiag_apply, specGraph, Fin.sum_univ_three, Fin.ext_iff] <;> norm_num⟩

/-- C10. `N[i,j] = N[j,i]` for the initial `N = W + Wᵀ` and for the `N` rebuilt
by the E-step from any `pi`, for every matrix `W`. -/
theorem symmetry_invariant {K : ℕ} (W : Mat K) (pi : Vec K) (i j : Fin K) :
    initN W i j = initN W j i ∧ eStep (initN W) pi i j = eStep (initN W) pi j i := by
  have h : initN W i j = initN W j i := by
    simp only [initN, madd, t]
    exact add_comm _ _
  refine ⟨h, ?_⟩
  rw [eStep_apply, eStep_apply, h, add_comm (pi i)]

/-- C11. With `maxit = 0` no round is executed: `iters = 0`, `converged = false`,
and the returned `pi` is the initial `pi` (uniform or spectral) divided by its
sum. -/
theorem maxit_zero {K : ℕ} (eigs_gen : Mat K → Vec K) (W : Mat K) (a b epsilon : ℚ) :
    BT_EM_arma eigs_gen W a b 0 epsilon
      = some { pi := fun k => initPi eigs_gen (maskDiag W) k / ∑ j, initPi eigs_gen (maskDiag W) j
               iters := 0
               converged := false
               rounds := 0
               rawPi := initPi eigs_gen (maskDiag W) } := by
  have h := runFrom_maxed (maskDiag W) a b 0 epsilon (initPi eigs_gen (maskDiag W))
    le_rfl (by decide) (fun j hj => absurd hj (Nat.not_lt_zero j)) ((0 : Int).toNat + 1)
    (Nat.lt_succ_self _)
  exact h

theorem rowsums_eq_mul_denom {K : ℕ} (N : Mat K) (b : ℚ) (pi : Vec K) (k : Fin K) :
    rowsums N b pi k = pi k * denom N b k := by
  rw [rowsums_apply]
  unfold denom sum1
  ring

/-- C14. Normalising an already normalised vector returns it unchanged:
`normalize (normalize pi) = normalize pi` when `sum(pi) ≠ 0`. -/
theorem normalize_idempotent {K : ℕ} (pi : Vec K) (h : ∑ k, pi k ≠ 0) :
    normalize (normalize pi) = normalize pi := by
  funext k
  have hs : ∑ j, normalize pi j = 1 := normalize_sum pi h
  show normalize pi k / ∑ j, normalize pi j = normalize pi k
  rw [hs, div_one]

/-- Witness for C14: the un-normalised vector `[3/4, 5/8, 5/4]`. -/
theorem normalize_idempotent_witness :
    normalize (normalize rawAfterRound1) = normalize rawAfterRound1 :=
  normalize_idempotent rawAfterRound1 (by
    simp only [rawAfterRound1, Fin.sum_univ_three]
    norm_num)

/-- In exact arithmetic, in a round started with `pi`, with `N` the E-step
matrix and `denom` the M-step denominator of that round:
`rowsums[k] = pi[k] * denom[k]`; the test
passes iff `|numer[k] - pi[k] * denom[k]| ≤ epsilon` for every `k`; at a fixed
point of the M-step it passes for every `epsilon ≥ 0`; and where
`denom[k] ≠ 0` the residual is `|pi'[k] - pi[k]| * |denom[k]|` with `pi'` the
M-step result. -/
theorem residual_is_scaled_step_exact {K : ℕ} (N0 : Mat K) (numer : Vec K) (b epsilon : ℚ)
    (s : LoopState K) :
    (∀ k, rowsums (eStep N0 s.pi) b s.pi k = s.pi k * denom (eStep N0 s.pi) b k) ∧
    ((loopBody N0 numer b epsilon s).converged = true
        ↔ ∀ k, |numer k - s.pi k * denom (eStep N0 s.pi) b k| ≤ epsilon) ∧
    ((∀ k, s.pi k * denom (eStep N0 s.pi) b k = numer k) → 0 ≤ epsilon →
        (loopBody N0 numer b epsilon s).converged = true) ∧
    (∀ k, denom (eStep N0 s.pi) b k ≠ 0 →
        res numer (eStep N0 s.pi) b s.pi k
          = |(loopBody N0 numer b epsilon s).pi k - s.pi k| * |denom (eStep N0 s.pi) b k|) := by
  have hiff : (loopBody N0 numer b epsilon s).converged = true
      ↔ ∀ k, |numer k - s.pi k * denom (eStep N0 s.pi) b k| ≤ epsilon := by
    show checkConverged numer (eStep N0 s.pi) b epsilon s.pi = true ↔ _
    unfold checkConverged
    rw [scanRes_iff]
    simp only [List.mem_finRange, true_implies, res, rowsums_eq_mul_denom]
  refine ⟨fun k => rowsums_eq_mul_denom _ _ _ k, hiff, ?_, ?_⟩
  · intro hfix heps
    rw [hiff]
    intro k
    rw [hfix k, sub_self, abs_zero]
    exact heps
  · intro k hk
    show |numer k - rowsums (eStep N0 s.pi) b s.pi k|
      = |numer k / denom (eStep N0 s.pi) b k - s.pi k| * |denom (eStep N0 s.pi) b k|
    rw [rowsums_eq_mul_denom, ← abs_mul, sub_mul, div_mul_cancel₀ _ hk]

/-- On `oneWin` with `a = 1`, `b = 1`, `epsilon = 1` the test of the first round
passes from the uniform start. -/
theorem oneWin_first_test :
    testRound (initN (maskDiag oneWin)) (numer (maskDiag oneWin) 1) 1 1
      (initPi (unitEigs 2) (maskDiag oneWin)) 0 = true := by
  unfold testRound
  rw [checkConverged_iff]
  intro k
  simp only [piSeq, eStep_apply, initPi_uniform_of_le _ _ le_rfl, uniformPi, numer, sum1,
    initN, madd, t, maskDiag_apply, Fin.sum_univ_two]
  fin_cases k <;> simp [oneWin] <;> norm_num

/-- C12 (as claimed) fails in its last part: two items never compared, `a = 2`,
`b = 2`, `epsilon = 0`.  The uniform start `p` is an exact fixed point of the
M-step, the first test passes, and the returned `pi` equals `normalize p`. -/
theorem mstep_fixed_point_counterexample :
    ∃ r, BT_EM_arma (unitEigs 2) noComparisons 2 2 1 0 = some r ∧ r.converged = true ∧
      r.rounds = 1 ∧ r.pi = normalize (initPi (unitEigs 2) (maskDiag noComparisons)) := by
  have hN : ∀ i j, initN (maskDiag noComparisons) i j = 0 := by
    intro i j
    fin_cases i <;> fin_cases j <;> simp [initN, madd, t, maskDiag_apply, noComparisons]
  have hnum : ∀ k, numer (maskDiag noComparisons) 2 k = 1 := by
    intro k
    fin_cases k <;>
      simp [numer, sum1, maskDiag_apply, noComparisons, Fin.sum_univ_two] <;> norm_num
  have hp : ∀ k, initPi (unitEigs 2) (maskDiag noComparisons) k = 1 / 2 := by
    intro k
    rw [initPi_uniform_of_le _ _ le_rfl]
    norm_num [uniformPi]
  have htest : testRound (initN (maskDiag noComparisons)) (numer (maskDiag noComparisons) 2)
      2 0 (initPi (unitEigs 2) (maskDiag noComparisons)) 0 = true := by
    unfold testRound
    rw [checkConverged_iff]
    intro k
    simp only [piSeq, eStep_apply, hN, hnum, hp, zero_div, Finset.sum_const_zero]
    norm_num
  have hrun := runFrom_stopped (maskDiag noComparisons) 2 2 1 0
    (initPi (unitEigs 2) (maskDiag noComparisons)) (by decide) 0 (by decide)
    (fun i hi => absurd hi (Nat.not_lt_zero i)) htest ((1 : Int).toNat + 1)
    (Nat.lt_succ_self _)
  refine ⟨_, hrun, rfl, rfl, ?_⟩
  have hfix : piSeq (initN (maskDiag noComparisons)) (numer (maskDiag noComparisons) 2) 2
      (initPi (unitEigs 2) (maskDiag noComparisons)) (0 + 1)
      = initPi (unitEigs 2) (maskDiag noComparisons) := by
    funext k
    show emRound _ _ _ _ k = _
    rw [emRound_apply]
    simp only [hN, hnum, hp, zero_div, Finset.sum_const_zero]
    norm_num
  show normalize _ = normalize _
  rw [hfix]

/-- C12 (amended). Whenever the call reports `converged = true`, with round
`j + 1` the last round (the one whose test passed on `p = piSeq .. j`), the
un-normalised result is the M-step `numer / (rowSum(N(p)) + b)` computed in that
same round and the returned `pi` is its normalisation.  This is in general not
`normalize p`: on `oneWin` with `a = b = epsilon = 1` the first test passes on
the uniform `p` and the call returns a vector different from `normalize p`. -/
theorem mstep_runs_in_last_round {K : ℕ} (eigs_gen : Mat K → Vec K) (W : Mat K) (a b : ℚ)
    (maxit : Int) (epsilon : ℚ) (h0 : 0 ≤ maxit) (hmax : maxit < 2147483648) :
    (∃ r, BT_EM_arma eigs_gen W a b maxit epsilon = some r ∧
      (r.converged = true → ∃ j : ℕ, r.rounds = j + 1 ∧
        testRound (initN (maskDiag W)) (numer (maskDiag W) a) b epsilon
          (initPi eigs_gen (maskDiag W)) j = true ∧
        r.rawPi = mStep (numer (maskDiag W) a)
          (eStep (initN (maskDiag W))
            (piSeq (initN (maskDiag W)) (numer (maskDiag W) a) b
              (initPi eigs_gen (maskDiag W)) j)) b ∧
        r.pi = normalize (mStep (numer (maskDiag W) a)
          (eStep (initN (maskDiag W))
            (piSeq (initN (maskDiag W)) (numer (maskDiag W) a) b
              (initPi eigs_gen (maskDiag W)) j)) b))) ∧
    (∃ r, BT_EM_arma (unitEigs 2) oneWin 1 1 1 1 = some r ∧ r.converged = true ∧
      r.rounds = 1 ∧ r.pi ≠ normalize (initPi (unitEigs 2) (maskDiag oneWin))) := by
  constructor
  · obtain ⟨n, c, hrun, hle, hf, ht⟩ :=
      runFrom_cases (maskDiag W) a b maxit epsilon (initPi eigs_gen (maskDiag W)) h0 hmax
    refine ⟨_, hrun _ (Nat.lt_succ_self _), ?_⟩
    intro hc
    obtain ⟨j, hj, htj, _⟩ := ht hc
    subst hj
    exact ⟨j, rfl, htj, rfl, rfl⟩
  · have hrun := runFrom_stopped (maskDiag oneWin) 1 1 1 1
      (initPi (unitEigs 2) (maskDiag oneWin)) (by decide) 0 (by decide)
      (fun i hi => absurd hi (Nat.not_lt_zero i)) oneWin_first_test ((1 : Int).toNat + 1)
      (Nat.lt_succ_self _)
    refine ⟨_, hrun, rfl, rfl, ?_⟩
    intro heq
    have h1 : normalize (piSeq (initN (maskDiag oneWin)) (numer (maskDiag oneWin) 1) 1
        (initPi (unitEigs 2) (maskDiag oneWin)) (0 + 1)) 1
        = normalize (initPi (unitEigs 2) (maskDiag oneWin)) 1 := congrFun heq 1
    have hl : normalize (piSeq (initN (maskDiag oneWin)) (numer (maskDiag oneWin) 1) 1
        (initPi (unitEigs 2) (maskDiag oneWin)) (0 + 1)) 1 = 0 := by
      show emRound _ _ _ _ 1 / _ = 0
      rw [emRound_apply]
      have : numer (maskDiag oneWin) 1 1 = 0 := by
        simp [numer, sum1, maskDiag, schur, oneWin, Fin.sum_univ_two]
      rw [this, zero_div, zero_div]
    have hr : normalize (initPi (unitEigs 2) (maskDiag oneWin)) 1 = 1 / 2 := by
      rw [initPi_uniform_of_le _ _ le_rfl]
      simp only [normalize, uniformPi, Fin.sum_univ_two]
      norm_num
    rw [hl, hr] at h1
    norm_num at h1

/-- Witness for C12 (amended): the specification's scenario with `maxit = 100`. -/
theorem mstep_runs_in_last_round_witness :
    ∃ r, BT_EM_arma (unitEigs 3) specGraph 1 1 100 (1 / 100) = some r ∧
      (r.converged = true → ∃ j : ℕ, r.rounds = j + 1 ∧
        testRound (initN (maskDiag specGraph)) (numer (maskDiag specGraph) 1) 1 (1 / 100)
          (initPi (unitEigs 3) (maskDiag specGraph)) j = true ∧
        r.rawPi = mStep (numer (maskDiag specGraph) 1)
          (eStep (initN (maskDiag specGraph))
            (piSeq (initN (maskDiag specGraph)) (numer (maskDiag specGraph) 1) 1
              (initPi (unitEigs 3) (maskDiag specGraph)) j)) 1 ∧
        r.pi = normalize (mStep (numer (maskDiag specGraph) 1)
          (eStep (initN (maskDiag specGraph))
            (piSeq (initN (maskDiag specGraph)) (numer (maskDiag specGraph) 1) 1
              (initPi (unitEigs 3) (maskDiag specGraph)) j)) 1)) :=
  (mstep_runs_in_last_round (unitEigs 3) specGraph 1 1 100 (1 / 100) (by decide)
    (by decide)).1

theorem eStep_nonneg {K : ℕ} (N0 : Mat K) (pi : Vec K) (hN : ∀ i j, 0 ≤ N0 i j)
    (hpi : ∀ k, 0 < pi k) (i j : Fin K) : 0 ≤ eStep N0 pi i j := by
  rw [eStep_apply]
  exact div_nonneg (hN i j) (add_pos (hpi i) (hpi j)).le

theorem single_initN {W : Mat 1} (i j : Fin 1) : initN (maskDiag W) i j = 0 := by
  have hij : i = j := Subsingleton.elim i j
  simp [initN, madd, t, maskDiag_apply, hij]

theorem single_numer (W : Mat 1) (a : ℚ) (k : Fin 1) : numer (maskDiag W) a k = a - 1 := by
  have : ∀ j : Fin 1, maskDiag W k j = 0 := by
    intro j
    simp [maskDiag_apply, Subsingleton.elim k j]
  simp [numer, sum1, this]

theorem single_emRound (W : Mat 1) (a b : ℚ) (p : Vec 1) (k : Fin 1) :
    emRound (initN (maskDiag W)) (numer (maskDiag W) a) b p k = (a - 1) / b := by
  rw [emRound_apply, single_numer]
  simp only [single_initN, zero_div, Finset.sum_const_zero, zero_add]

/-- In exact arithmetic, for a single item (`K = 1`), any `W[0,0]`, any `a`,
`b ≠ 0`, `epsilon ≥ 0` and `maxit ≥ 2`: the start is the uniform one, the call reports
`converged = true` after at most 2 rounds, the un-normalised final `pi[0]` is
`(a - 1) / b`, and the returned `pi[0]` is `1` when `a ≠ 1`. -/
theorem single_item_exact (eigs_gen : Mat 1 → Vec 1) (W : Mat 1) (a b epsilon : ℚ) (maxit : Int)
    (hb : b ≠ 0) (heps : 0 ≤ epsilon) (h2 : 2 ≤ maxit) (hmax : maxit < 2147483648) :
    chooseStart (maskDiag W) = Start.uniform ∧
    ∃ r, BT_EM_arma eigs_gen W a b maxit epsilon = some r ∧ r.converged = true ∧
      1 ≤ r.iters ∧ r.iters ≤ 2 ∧ r.rawPi 0 = (a - 1) / b ∧ (a ≠ 1 → r.pi 0 = 1) := by
  constructor
  · simp [chooseStart]
  obtain ⟨n, c, hrun, hle, hf, ht⟩ :=
    runFrom_cases (maskDiag W) a b maxit epsilon (initPi eigs_gen (maskDiag W)) (by omega) hmax
  have htest1 : testRound (initN (maskDiag W)) (numer (maskDiag W) a) b epsilon
      (initPi eigs_gen (maskDiag W)) 1 = true := by
    unfold testRound
    rw [checkConverged_iff]
    intro k
    have hp : piSeq (initN (maskDiag W)) (numer (maskDiag W) a) b
        (initPi eigs_gen (maskDiag W)) 1 k = (a - 1) / b := single_emRound W a b _ k
    simp only [eStep_apply, single_initN, zero_div, Finset.sum_const_zero, zero_mul, zero_add,
      single_numer, hp, mul_div_cancel₀ _ hb, sub_self, abs_zero]
    exact heps
  cases c with
  | false =>
    obtain ⟨hn, hall⟩ := hf rfl
    have := hall 1 (by omega)
    rw [htest1] at this
    exact absurd this (by decide)
  | true =>
    obtain ⟨j, hj, _, hfirst⟩ := ht rfl
    have hj1 : j ≤ 1 := by
      by_contra hlt
      have := hfirst 1 (by omega)
      rw [htest1] at this
      exact absurd this (by decide)
    subst hj
    have hraw : ∀ k, piSeq (initN (maskDiag W)) (numer (maskDiag W) a) b
        (initPi eigs_gen (maskDiag W)) (j + 1) k = (a - 1) / b :=
      fun k => single_emRound W a b _ k
    refine ⟨_, hrun _ (Nat.lt_succ_self _), rfl, ?_, ?_, hraw 0, ?_⟩
    · show (1 : Int) ≤ ((j + 1 : ℕ) : Int)
      omega
    · show ((j + 1 : ℕ) : Int) ≤ 2
      omega
    · intro ha
      show normalize _ 0 = 1
      unfold normalize
      simp only [Fin.sum_univ_one, hraw]
      exact div_self (div_ne_zero (sub_ne_zero.2 ha) hb)

/-! ## The loop with the arithmetic as a parameter -/

theorem G_piSeq_shift (A : Arith) {K : ℕ} (N0 : G.Mat A K) (numer : G.Vec A K) (b : A.R)
    (pi0 : G.Vec A K) (n : ℕ) :
    G.piSeq A N0 numer b (G.mStep A numer (G.eStep A N0 pi0) b) n
      = G.piSeq A N0 numer b pi0 (n + 1) := by
  induction n with
  | zero => rfl
  | succ n ih => simp only [G.piSeq, ih]

theorem G_testRound_shift (A : Arith) {K : ℕ} (N0 : G.Mat A K) (numer : G.Vec A K)
    (b epsilon : A.R) (pi0 : G.Vec A K) (n : ℕ) :
    G.testRound A N0 numer b epsilon (G.mStep A numer (G.eStep A N0 pi0) b) n
      = G.testRound A N0 numer b epsilon pi0 (n + 1) := by
  unfold G.testRound
  rw [G_piSeq_shift]

theorem G_whileLoop_exit (A : Arith) {K : ℕ} (N0 : G.Mat A K) (numer : G.Vec A K)
    (b epsilon : A.R) (maxit : Int) (fuel : ℕ) (s : G.LoopState A K)
    (h : ¬ s.iter < maxit ∨ s.converged = true) :
    G.whileLoop A N0 numer b epsilon maxit (fuel + 1) s
      = some { s with iter := wrap32 (s.iter + 1) } := by
  rcases h with h | h <;> simp [G.whileLoop, h]

theorem G_whileLoop_enter (A : Arith) {K : ℕ} (N0 : G.Mat A K) (numer : G.Vec A K)
    (b epsilon : A.R) (maxit : Int) (fuel : ℕ) (s : G.LoopState A K)
    (h1 : s.iter < maxit) (h2 : s.converged = false) :
    G.whileLoop A N0 numer b epsilon maxit (fuel + 1) s
      = G.whileLoop A N0 numer b epsilon maxit fuel
          (G.loopBody A N0 numer b epsilon { s with iter := wrap32 (s.iter + 1) }) := by
  simp [G.whileLoop, h1, h2]

/-- A run in which no convergence test passes executes all remaining rounds. -/
theorem G_whileLoop_run (A : Arith) {K : ℕ} (N0 : G.Mat A K) (numer : G.Vec A K)
    (b epsilon : A.R) (maxit : Int) (hmax : maxit < 2147483648) (m : ℕ) :
    ∀ (fuel : ℕ) (s : G.LoopState A K), m < fuel → s.iter + m = maxit →
      -2147483648 ≤ s.iter → s.converged = false →
      (∀ j, j < m → G.testRound A N0 numer b epsilon s.pi j = false) →
      G.whileLoop A N0 numer b epsilon maxit fuel s
        = some { iter := wrap32 (maxit + 1), converged := false,
                 pi := G.piSeq A N0 numer b s.pi m, rounds := s.rounds + m } := by
  induction m with
  | zero =>
    intro fuel s hf hi _ hc _
    obtain ⟨f, rfl⟩ : ∃ f, fuel = f + 1 := ⟨fuel - 1, by omega⟩
    rw [G_whileLoop_exit _ _ _ _ _ _ _ _ (Or.inl (by simp at hi; omega))]
    simp at hi
    cases s
    simp_all [G.piSeq]
  | succ m ih =>
    intro fuel s hf hi hlo hc ht
    obtain ⟨f, rfl⟩ : ∃ f, fuel = f + 1 := ⟨fuel - 1, by omega⟩
    have hlt : s.iter < maxit := by push_cast at hi; omega
    rw [G_whileLoop_enter _ _ _ _ _ _ _ _ hlt hc]
    have hw : wrap32 (s.iter + 1) = s.iter + 1 := wrap32_id _ (by omega) (by omega)
    have h0 := ht 0 (by omega)
    rw [ih f _ (by omega)]
    · simp only [G.loopBody, Option.some.injEq, G.LoopState.mk.injEq, true_and]
      exact ⟨G_piSeq_shift _ _ _ _ _ _, by omega⟩
    · simp only [G.loopBody, hw]; push_cast at hi; omega
    · simp only [G.loopBody, hw]; omega
    · exact h0
    · intro j hj
      have := ht (j + 1) (by omega)
      rw [← G_testRound_shift] at this
      exact this

/-- A run whose first passing convergence test is in round `j + 1` stops after
that round. -/
theorem G_whileLoop_stop (A : Arith) {K : ℕ} (N0 : G.Mat A K) (numer : G.Vec A K)
    (b epsilon : A.R) (maxit : Int) (hmax : maxit < 2147483648) (j : ℕ) :
    ∀ (fuel : ℕ) (s : G.LoopState A K), j + 1 < fuel → s.iter + j < maxit →
      -2147483648 ≤ s.iter → s.converged = false →
      (∀ i, i < j → G.testRound A N0 numer b epsilon s.pi i = false) →
      G.testRound A N0 numer b epsilon s.pi j = true →
      G.whileLoop A N0 numer b epsilon maxit fuel s
        = some { iter := wrap32 (s.iter + j + 2), converged := true,
                 pi := G.piSeq A N0 numer b s.pi (j + 1), rounds := s.rounds + (j + 1) } := by
  induction j with
  | zero =>
    intro fuel s hf hi hlo hc _ ht
    obtain ⟨f, rfl⟩ : ∃ f, fuel = f + 2 := ⟨fuel - 2, by omega⟩
    have hlt : s.iter < maxit := by simpa using hi
    have hw : wrap32 (s.iter + 1) = s.iter + 1 := wrap32_id _ (by omega) (by omega)
    rw [G_whileLoop_enter _ _ _ _ _ _ _ _ hlt hc, G_whileLoop_exit _ _ _ _ _ _ _ _ (Or.inr ht)]
    have hpi : G.mStep A numer (G.eStep A N0 s.pi) b = G.piSeq A N0 numer b s.pi (0 + 1) := rfl
    have hcc : G.checkConverged A numer (G.eStep A N0 s.pi) b epsilon s.pi = true := ht
    simp only [G.loopBody, hw, hpi, hcc, Option.some.injEq, G.LoopState.mk.injEq, true_and,
      and_true]
    congr 1
    push_cast
    ring
  | succ j ih =>
    intro fuel s hf hi hlo hc hfalse ht
    obtain ⟨f, rfl⟩ : ∃ f, fuel = f + 1 := ⟨fuel - 1, by omega⟩
    have hlt : s.iter < maxit := by push_cast at hi; omega
    rw [G_whileLoop_enter _ _ _ _ _ _ _ _ hlt hc]
    have hw : wrap32 (s.iter + 1) = s.iter + 1 := wrap32_id _ (by omega) (by omega)
    have h0 := hfalse 0 (by omega)
    rw [ih f _ (by omega)]
    · simp only [G.loopBody, hw, Option.some.injEq, G.LoopState.mk.injEq, true_and]
      refine ⟨?_, G_piSeq_shift _ _ _ _ _ _, by omega⟩
      congr 1
      push_cast
      ring
    · simp only [G.loopBody, hw]; push_cast at hi; omega
    · simp only [G.loopBody, hw]; omega
    · exact h0
    · intro i hi2
      have := hfalse (i + 1) (by omega)
      rw [← G_testRound_shift] at this
      exact this
    · have := ht
      rw [← G_testRound_shift] at this
      exact this

/-- Every call with `0 ≤ maxit` returns, after some number `n ≤ maxit` of
rounds; the flag tells which of the two exits was taken. -/
theorem G_call_cases (A : Arith) {K : ℕ} (eigs_gen : G.Mat A K → G.Vec A K) (W : G.Mat A K)
    (a b : A.R) (maxit : Int) (epsilon : A.R) (h0 : 0 ≤ maxit) (hmax : maxit < 2147483648) :
    ∃ (n : ℕ) (c : Bool),
      (∀ fuel, maxit.toNat < fuel → G.BT_EM_arma_fuel A eigs_gen W a b maxit epsilon fuel
        = some { pi := G.normalize A (G.piSeq A (G.initN A (G.maskDiag A W))
                   (G.numer A (G.maskDiag A W) a) b (G.initPi A eigs_gen (G.maskDiag A W)) n)
                 iters := (n : Int)
                 converged := c
                 rounds := n
                 rawPi := G.piSeq A (G.initN A (G.maskDiag A W))
                   (G.numer A (G.maskDiag A W) a) b (G.initPi A eigs_gen (G.maskDiag A W)) n }) ∧
      (n : Int) ≤ maxit ∧
      (c = false → (n : Int) = maxit ∧
        ∀ j, j < n → G.testRound A (G.initN A (G.maskDiag A W)) (G.numer A (G.maskDiag A W) a)
          b epsilon (G.initPi A eigs_gen (G.maskDiag A W)) j = false) ∧
      (c = true → ∃ j, n = j + 1 ∧
        G.testRound A (G.initN A (G.maskDiag A W)) (G.numer A (G.maskDiag A W) a)
          b epsilon (G.initPi A eigs_gen (G.maskDiag A W)) j = true ∧
        ∀ i, i < j → G.testRound A (G.initN A (G.maskDiag A W))
          (G.numer A (G.maskDiag A W) a) b epsilon
          (G.initPi A eigs_gen (G.maskDiag A W)) i = false) := by
  rcases first_pass (G.testRound A (G.initN A (G.maskDiag A W)) (G.numer A (G.maskDiag A W) a)
    b epsilon (G.initPi A eigs_gen (G.maskDiag A W))) maxit.toNat with hno | hyes
  · refine ⟨maxit.toNat, false, ?_, ?_, ?_, ?_⟩
    · intro fuel hfuel
      have hrun := G_whileLoop_run A (G.initN A (G.maskDiag A W))
        (G.numer A (G.maskDiag A W) a) b epsilon maxit hmax maxit.toNat fuel
        { iter := 0, converged := false, pi := G.initPi A eigs_gen (G.maskDiag A W),
          rounds := 0 }
        hfuel (by simp only [Int.toNat_of_nonneg h0, zero_add]) (by norm_num) rfl hno
      have hw := wrap32_succ_pred maxit (by omega) hmax
      unfold G.BT_EM_arma_fuel
      rw [hrun]
      simp only [hw, zero_add, Int.toNat_of_nonneg h0]
    · omega
    · intro _
      exact ⟨Int.toNat_of_nonneg h0, hno⟩
    · intro h
      exact absurd h (by decide)
  · obtain ⟨j, hj, ht, hfalse⟩ := hyes
    refine ⟨j + 1, true, ?_, ?_, ?_, ?_⟩
    · intro fuel hfuel
      have hjm : (j : Int) < maxit := by omega
      have hrun := G_whileLoop_stop A (G.initN A (G.maskDiag A W))
        (G.numer A (G.maskDiag A W) a) b epsilon maxit hmax j fuel
        { iter := 0, converged := false, pi := G.initPi A eigs_gen (G.maskDiag A W),
          rounds := 0 }
        (by omega) (by simp only [zero_add]; exact hjm) (by norm_num) rfl hfalse ht
      have hw : wrap32 (wrap32 ((j : Int) + 2) - 1) = (j : Int) + 1 := by
        unfold wrap32; omega
      unfold G.BT_EM_arma_fuel
      rw [hrun]
      simp only [hw, zero_add, Nat.cast_add, Nat.cast_one]
    · omega
    · intro h
      exact absurd h (by decide)
    · intro _
      exact ⟨j, rfl, ht, hfalse⟩

theorem G_scanRes_iff (A : Arith) {K : ℕ} (res : G.Vec A K) (epsilon : A.R)
    (l : List (Fin K)) :
    G.scanRes A res epsilon l = true ↔ ∀ k, k ∈ l → A.gt (res k) epsilon = false := by
  induction l with
  | nil => simp [G.scanRes]
  | cons x xs ih =>
    unfold G.scanRes
    cases hx : A.gt (res x) epsilon with
    | true => simp [hx]
    | false => simp [hx, ih]

theorem G_checkConverged_iff (A : Arith) {K : ℕ} (numer : G.Vec A K) (N : G.Mat A K)
    (b epsilon : A.R) (pi : G.Vec A K) :
    G.checkConverged A numer N b epsilon pi = true
      ↔ ∀ k, A.gt (G.res A numer N b pi k) epsilon = false := by
  unfold G.checkConverged
  rw [G_scanRes_iff]
  simp only [List.mem_finRange, true_implies]

theorem G_eStep_empty (A : Arith) {K : ℕ} (N0 : G.Mat A K) (pi : G.Vec A K)
    (h : G.nonzeros A N0 = []) : G.eStep A N0 pi = fun _ _ => A.zero := by
  funext i j
  simp [G.eStep, G.n_locations, G.nij, G.sp_mat, h]

theorem G_sum1_empty (A : Arith) {K : ℕ} (M : G.Mat A K) (h : G.nonzeros A M = []) :
    G.sum1 A M = fun _ => A.zero := by
  simp [G.sum1, h]

theorem G_rowsums_empty (A : Arith) {K : ℕ} (N : G.Mat A K) (b : A.R) (pi : G.Vec A K)
    (h : G.nonzeros A N = []) (k : Fin K) :
    G.rowsums A N b pi k = A.add A.zero (A.mul b (pi k)) := by
  simp [G.rowsums, h]

theorem G_nonzeros_of_isZero (A : Arith) {K : ℕ} (M : G.Mat A K)
    (h : ∀ i j, A.isZero (M i j) = true) : G.nonzeros A M = [] := by
  unfold G.nonzeros
  rw [List.filter_eq_nil_iff]
  intro p _
  simp [h p.1 p.2]

theorem G_initPi_uniform_of_le (A : Arith) {K : ℕ} (eigs_gen : G.Mat A K → G.Vec A K)
    (W0 : G.Mat A K) (h : K ≤ 2) : G.initPi A eigs_gen W0 = G.uniformPi A K := by
  have : ¬ (K > 2) := by omega
  simp [G.initPi, this]

/-- When `N` has no stored entry the M-step does not depend on `pi`: every round
after the first starts from the same vector. -/
theorem G_piSeq_stationary (A : Arith) {K : ℕ} (N0 : G.Mat A K) (numer : G.Vec A K) (b : A.R)
    (pi0 : G.Vec A K) (h : G.nonzeros A N0 = []) (n : ℕ) :
    G.piSeq A N0 numer b pi0 (n + 1) = G.mStep A numer (fun _ _ => A.zero) b := by
  show G.mStep A numer (G.eStep A N0 _) b = _
  rw [G_eStep_empty A N0 _ h]

theorem G_testRound_stationary (A : Arith) {K : ℕ} (N0 : G.Mat A K) (numer : G.Vec A K)
    (b epsilon : A.R) (pi0 : G.Vec A K) (h : G.nonzeros A N0 = []) (n : ℕ) :
    G.testRound A N0 numer b epsilon pi0 (n + 1) = G.testRound A N0 numer b epsilon pi0 1 := by
  unfold G.testRound
  rw [G_piSeq_stationary A N0 numer b pi0 h n, G_piSeq_stationary A N0 numer b pi0 h 0]

/-! ## Rounding in `binary64` -/

theorem roundHalfEven_of_near (m : ℚ) (n : ℤ) (h1 : (n : ℚ) - 1 / 2 < m)
    (h2 : m < (n : ℚ) + 1 / 2) : roundHalfEven m = n := by
  unfold roundHalfEven
  rcases le_or_lt (n : ℚ) m with hge | hlt
  · have hf : ⌊m⌋ = n := by
      rw [Int.floor_eq_iff]
      constructor
      · exact hge
      · linarith
    rw [hf, if_pos (by linarith)]
  · have hf : ⌊m⌋ = n - 1 := by
      rw [Int.floor_eq_iff]
      push_cast
      constructor <;> linarith
    rw [hf]
    push_cast
    rw [if_neg (by linarith), if_pos (by linarith)]
    ring

theorem log2_of_bounds (x : ℚ) (e : ℤ) (hx : 0 < x) (h1 : (2 : ℚ) ^ e ≤ x)
    (h2 : x < (2 : ℚ) ^ (e + 1)) : Int.log 2 x = e := by
  have hb : (1 : ℕ) < 2 := by norm_num
  have a1 : e ≤ Int.log 2 x := (Int.zpow_le_iff_le_log hb hx).1 (by simpa using h1)
  have a2 : Int.log 2 x < e + 1 := (Int.lt_zpow_iff_log_lt hb hx).1 (by simpa using h2)
  omega

/-- The value of `fl x` from the binade of `x` and the integer nearest to its
scaled magnitude. -/
theorem fl_of_bounds (x : ℚ) (e n : ℤ) (hx : x ≠ 0) (he : -1022 ≤ e)
    (h1 : (2 : ℚ) ^ e ≤ |x|) (h2 : |x| < (2 : ℚ) ^ (e + 1))
    (hn1 : (n : ℚ) - 1 / 2 < |x| / (2 : ℚ) ^ (e - 52))
    (hn2 : |x| / (2 : ℚ) ^ (e - 52) < (n : ℚ) + 1 / 2)
    (hov : (n : ℚ) * (2 : ℚ) ^ (e - 52) < (2 : ℚ) ^ (1024 : ℤ)) :
    fl x = Dbl.fin ((if 0 < x then 1 else -1) * ((n : ℚ) * (2 : ℚ) ^ (e - 52))) := by
  have hlog : Int.log 2 |x| = e := log2_of_bounds |x| e (abs_pos.2 hx) h1 h2
  have hmax : max e (-1022) = e := max_eq_left he
  unfold fl
  rw [if_neg hx, hlog, hmax, roundHalfEven_of_near _ n hn1 hn2, if_neg (not_le.2 hov)]

theorem fl_zero : fl 0 = Dbl.fin 0 := by
  unfold fl
  rw [if_pos rfl]

theorem fl_one : fl 1 = Dbl.fin 1 := by
  rw [fl_of_bounds 1 0 4503599627370496 (by norm_num) (by norm_num) (by norm_num)
    (by norm_num) (by norm_num) (by norm_num) (by norm_num)]
  norm_num

theorem fl_49 : fl 49 = Dbl.fin 49 := by
  rw [fl_of_bounds 49 5 6896136929411072 (by norm_num) (by norm_num) (by norm_num)
    (by norm_num) (by norm_num) (by norm_num) (by norm_num)]
  norm_num

theorem fl_neg48 : fl (-48) = Dbl.fin (-48) := by
  rw [fl_of_bounds (-48) 5 6755399441055744 (by norm_num) (by norm_num) (by norm_num)
    (by norm_num) (by norm_num) (by norm_num) (by norm_num)]
  norm_num

/-- The quotient `1.0 / 49.0` in `binary64`. -/
theorem fl_one_div_49 : fl (1 / 49) = Dbl.fin (5882252574524729 / 288230376151711744) := by
  rw [fl_of_bounds (1 / 49) (-6) 5882252574524729 (by norm_num) (by norm_num)
    (by norm_num [abs_of_pos]) (by norm_num [abs_of_pos]) (by norm_num [abs_of_pos])
    (by norm_num [abs_of_pos]) (by norm_num)]
  norm_num

/-- The product `49.0 * (1.0 / 49.0)` in `binary64` is `1 - 2^-53`, not `1`. -/
theorem fl_49_mul : fl (49 * (5882252574524729 / 288230376151711744))
    = Dbl.fin (9007199254740991 / 9007199254740992) := by
  rw [fl_of_bounds (49 * (5882252574524729 / 288230376151711744)) (-1) 9007199254740991
    (by norm_num) (by norm_num)
    (by norm_num [abs_of_pos]) (by norm_num [abs_of_pos]) (by norm_num [abs_of_pos])
    (by norm_num [abs_of_pos]) (by norm_num)]
  norm_num

theorem fl_below_one : fl (9007199254740991 / 9007199254740992)
    = Dbl.fin (9007199254740991 / 9007199254740992) := by
  rw [fl_of_bounds (9007199254740991 / 9007199254740992) (-1) 9007199254740991
    (by norm_num) (by norm_num)
    (by norm_num [abs_of_pos]) (by norm_num [abs_of_pos]) (by norm_num [abs_of_pos])
    (by norm_num [abs_of_pos]) (by norm_num)]
  norm_num

theorem fl_ulp : fl (1 / 9007199254740992) = Dbl.fin (1 / 9007199254740992) := by
  rw [fl_of_bounds (1 / 9007199254740992) (-53) 4503599627370496
    (by norm_num) (by norm_num)
    (by norm_num [abs_of_pos]) (by norm_num [abs_of_pos]) (by norm_num [abs_of_pos])
    (by norm_num [abs_of_pos]) (by norm_num)]
  norm_num

/-! ## A single item, with the arithmetic as a parameter -/

theorem G_single_patterns (A : Arith) (W : G.Mat A 1)
    (hmask : A.isZero (G.maskDiag A W 0 0) = true) :
    G.nonzeros A (G.maskDiag A W) = [] ∧ G.nonzeros A (G.initN A (G.maskDiag A W)) = [] := by
  have h0 : ∀ i j : Fin 1, A.isZero (G.maskDiag A W i j) = true := by
    intro i j
    rw [Subsingleton.elim i 0, Subsingleton.elim j 0]
    exact hmask
  refine ⟨G_nonzeros_of_isZero A _ h0, G_nonzeros_of_isZero A _ ?_⟩
  intro i j
  unfold G.initN
  rw [if_pos (h0 i j)]
  exact h0 j i

theorem G_single_numer (A : Arith) (W : G.Mat A 1) (a : A.R)
    (hmask : A.isZero (G.maskDiag A W 0 0) = true) (k : Fin 1) :
    G.numer A (G.maskDiag A W) a k = A.add A.zero (A.sub a A.one) := by
  unfold G.numer
  rw [G_sum1_empty A _ (G_single_patterns A W hmask).1]

theorem G_single_mStep (A : Arith) (numer : G.Vec A 1) (b : A.R)
    (hz : A.isZero A.zero = true) (k : Fin 1) :
    G.mStep A numer (fun _ _ => A.zero) b k = A.div (numer k) (A.add A.zero b) := by
  unfold G.mStep G.denom
  rw [G_sum1_empty A _ (G_nonzeros_of_isZero A _ (fun _ _ => hz))]

theorem G_single_check (A : Arith) (numer : G.Vec A 1) (N : G.Mat A 1) (b epsilon : A.R)
    (pi : G.Vec A 1) (h : G.nonzeros A N = []) :
    G.checkConverged A numer N b epsilon pi
      = !A.gt (A.abs (A.sub (numer 0) (A.add A.zero (A.mul b (pi 0))))) epsilon := by
  have hl : List.finRange 1 = [0] := rfl
  unfold G.checkConverged
  rw [hl]
  simp only [G.scanRes, G.res, G_rowsums_empty A N b pi h]
  cases A.gt (A.abs (A.sub (numer 0) (A.add A.zero (A.mul b (pi 0))))) epsilon <;> rfl

theorem G_single_test (A : Arith) (N0 : G.Mat A 1) (numer : G.Vec A 1) (b epsilon : A.R)
    (pi0 : G.Vec A 1) (h : G.nonzeros A N0 = []) (hz : A.isZero A.zero = true) (n : ℕ) :
    G.testRound A N0 numer b epsilon pi0 n
      = !A.gt (A.abs (A.sub (numer 0)
          (A.add A.zero (A.mul b (G.piSeq A N0 numer b pi0 n 0))))) epsilon := by
  unfold G.testRound
  rw [G_eStep_empty A N0 _ h]
  exact G_single_check A numer _ b epsilon _ (G_nonzeros_of_isZero A _ (fun _ _ => hz))

/-- A single item in any arithmetic in which `0 == 0` holds and the masked
diagonal entry is zero: the start is uniform, every round computes the same
`pi[0]`, and the call stops within 2 rounds or runs all `maxit` rounds. -/
theorem G_single_item (A : Arith) (eigs_gen : G.Mat A 1 → G.Vec A 1) (W : G.Mat A 1)
    (a b epsilon : A.R) (maxit : Int) (h2 : 2 ≤ maxit) (hmax : maxit < 2147483648)
    (hz : A.isZero A.zero = true) (hmask : A.isZero (G.maskDiag A W 0 0) = true) :
    G.initPi A eigs_gen (G.maskDiag A W) = G.uniformPi A 1 ∧
    ∃ r, G.BT_EM_arma A eigs_gen W a b maxit epsilon = some r ∧
      1 ≤ r.iters ∧
      (r.converged = true → r.iters ≤ 2) ∧
      (r.converged = false → r.iters = maxit) ∧
      r.rawPi 0 = A.div (A.add A.zero (A.sub a A.one)) (A.add A.zero b) ∧
      r.pi 0 = A.div (r.rawPi 0) (A.add A.zero (r.rawPi 0)) ∧
      (r.iters = 1 ↔
        A.gt (A.abs (A.sub (A.add A.zero (A.sub a A.one))
          (A.add A.zero (A.mul b (A.div A.one (A.ofNat 1)))))) epsilon = false) ∧
      (r.converged = true ↔
        A.gt (A.abs (A.sub (A.add A.zero (A.sub a A.one))
          (A.add A.zero (A.mul b (A.div A.one (A.ofNat 1)))))) epsilon = false ∨
        A.gt (A.abs (A.sub (A.add A.zero (A.sub a A.one))
          (A.add A.zero (A.mul b (r.rawPi 0))))) epsilon = false) := by
  refine ⟨G_initPi_uniform_of_le A eigs_gen _ (by decide), ?_⟩
  have hN := (G_single_patterns A W hmask).2
  have hraw : ∀ n, G.piSeq A (G.initN A (G.maskDiag A W)) (G.numer A (G.maskDiag A W) a) b
      (G.initPi A eigs_gen (G.maskDiag A W)) (n + 1) 0
      = A.div (A.add A.zero (A.sub a A.one)) (A.add A.zero b) := by
    intro n
    rw [G_piSeq_stationary A _ _ b _ hN n, G_single_mStep A _ b hz, G_single_numer A W a hmask]
  have htest0 : G.testRound A (G.initN A (G.maskDiag A W)) (G.numer A (G.maskDiag A W) a) b
      epsilon (G.initPi A eigs_gen (G.maskDiag A W)) 0
      = !A.gt (A.abs (A.sub (A.add A.zero (A.sub a A.one))
          (A.add A.zero (A.mul b (A.div A.one (A.ofNat 1)))))) epsilon := by
    have hp0 : G.piSeq A (G.initN A (G.maskDiag A W)) (G.numer A (G.maskDiag A W) a) b
        (G.initPi A eigs_gen (G.maskDiag A W)) 0 0 = A.div A.one (A.ofNat 1) := by
      show G.initPi A eigs_gen (G.maskDiag A W) 0 = _
      rw [G_initPi_uniform_of_le A eigs_gen _ (by decide)]
      rfl
    rw [G_single_test A _ _ b epsilon _ hN hz 0, G_single_numer A W a hmask, hp0]
  have htestS : ∀ n, G.testRound A (G.initN A (G.maskDiag A W))
      (G.numer A (G.maskDiag A W) a) b epsilon (G.initPi A eigs_gen (G.maskDiag A W)) (n + 1)
      = !A.gt (A.abs (A.sub (A.add A.zero (A.sub a A.one))
          (A.add A.zero (A.mul b
            (A.div (A.add A.zero (A.sub a A.one)) (A.add A.zero b)))))) epsilon := by
    intro n
    rw [G_single_test A _ _ b epsilon _ hN hz (n + 1), G_single_numer A W a hmask, hraw n]
  obtain ⟨n, c, hrun, hle, hf, ht⟩ := G_call_cases A eigs_gen W a b maxit epsilon (by omega) hmax
  have hsum : ∀ v : G.Vec A 1, G.sumVec A v = A.add A.zero (v 0) := fun v => rfl
  cases c with
  | false =>
    obtain ⟨hn, hall⟩ := hf rfl
    obtain ⟨m, rfl⟩ : ∃ m, n = m + 1 := ⟨n - 1, by omega⟩
    refine ⟨_, hrun _ (Nat.lt_succ_self _), ?_, ?_, ?_, hraw m, ?_, ?_, ?_⟩
    · show (1 : Int) ≤ ((m + 1 : ℕ) : Int)
      omega
    · intro h
      cases h
    · intro _
      exact hn
    · show G.normalize A _ 0 = _
      unfold G.normalize
      rw [hsum]
    · have t0 := hall 0 (by omega)
      rw [htest0] at t0
      simp only [Bool.not_eq_false'] at t0
      dsimp only
      rw [t0]
      constructor
      · intro h
        omega
      · intro h
        cases h
    · have t0 := hall 0 (by omega)
      have t1 := hall 1 (by omega)
      rw [htest0] at t0
      rw [htestS 0] at t1
      dsimp only
      rw [hraw m]
      simp only [Bool.not_eq_false'] at t0 t1
      simp [t0, t1]
  | true =>
    obtain ⟨j, hj, htj, hfirst⟩ := ht rfl
    subst hj
    have hj1 : j ≤ 1 := by
      by_contra hlt
      obtain ⟨i, rfl⟩ : ∃ i, j = i + 1 := ⟨j - 1, by omega⟩
      have h1 := hfirst 1 (by omega)
      rw [htestS 0] at h1
      rw [htestS i] at htj
      rw [h1] at htj
      exact absurd htj (by decide)
    refine ⟨_, hrun _ (Nat.lt_succ_self _), ?_, ?_, ?_, hraw j, ?_, ?_, ?_⟩
    · show (1 : Int) ≤ ((j + 1 : ℕ) : Int)
      omega
    · intro _
      show ((j + 1 : ℕ) : Int) ≤ 2
      omega
    · intro h
      cases h
    · show G.normalize A _ 0 = _
      unfold G.normalize
      rw [hsum]
    · dsimp only
      rcases Nat.eq_zero_or_pos j with h0 | hpos
      · subst h0
        rw [htest0] at htj
        simp only [Bool.not_eq_true'] at htj
        rw [htj]
        simp
      · have t0 := hfirst 0 hpos
        rw [htest0] at t0
        simp only [Bool.not_eq_false'] at t0
        rw [t0]
        constructor
        · intro h
          omega
        · intro h
          cases h
    · dsimp only
      rw [hraw j]
      simp only [true_iff]
      rcases Nat.eq_zero_or_pos j with h0 | hpos
      · subst h0
        rw [htest0] at htj
        left
        simpa using htj
      · obtain ⟨i, rfl⟩ : ∃ i, j = i + 1 := ⟨j - 1, by omega⟩
        rw [htestS i] at htj
        right
        simpa using htj

/-! ## Scalar computations in `binary64` -/

theorem Dbl_div_fin (x y : ℚ) (hy : y ≠ 0) : Dbl.div (Dbl.fin x) (Dbl.fin y) = fl (x / y) := by
  simp [Dbl.div, hy]

theorem Dbl_div_zero_of_pos (x : ℚ) (hx : 0 < x) :
    Dbl.div (Dbl.fin x) (Dbl.fin 0) = Dbl.pinf := by
  simp [Dbl.div, hx, hx.ne']

theorem Dbl_mul_zero_pinf : Dbl.mul (Dbl.fin 0) Dbl.pinf = Dbl.nan := by
  simp [Dbl.mul]

theorem b64_sub_2_1 : binary64.sub (Dbl.fin 2) (Dbl.fin 1) = Dbl.fin 1 := by
  show fl (2 + -1) = _
  rw [show (2 : ℚ) + -1 = 1 by norm_num]
  exact fl_one

theorem b64_zero_add_1 : binary64.add binary64.zero (Dbl.fin 1) = Dbl.fin 1 := by
  show fl (0 + 1) = _
  rw [zero_add]
  exact fl_one

theorem b64_numer_2 :
    binary64.add binary64.zero (binary64.sub (Dbl.fin 2) binary64.one) = Dbl.fin 1 := by
  show binary64.add binary64.zero (binary64.sub (Dbl.fin 2) (Dbl.fin 1)) = _
  rw [b64_sub_2_1, b64_zero_add_1]

theorem b64_start : binary64.div binary64.one (binary64.ofNat 1) = Dbl.fin 1 := by
  have h : binary64.ofNat 1 = Dbl.fin 1 := by
    show fl ((1 : ℕ) : ℚ) = _
    rw [Nat.cast_one]
    exact fl_one
  rw [h]
  show Dbl.div (Dbl.fin 1) (Dbl.fin 1) = _
  rw [Dbl_div_fin 1 1 one_ne_zero, div_one]
  exact fl_one

theorem b64_mask_lone : binary64.isZero (G.maskDiag binary64 lone 0 0) = true := by
  simp [G.maskDiag, lone, binary64, Dbl.isZero]

theorem b64_isZero_zero : binary64.isZero binary64.zero = true := by
  simp [binary64, Dbl.isZero]

/-- With `b = 49`: the residual of round 1 is `48`. -/
theorem b64_res1_49 :
    binary64.abs (binary64.sub (Dbl.fin 1)
      (binary64.add binary64.zero (binary64.mul (Dbl.fin 49) (Dbl.fin 1)))) = Dbl.fin 48 := by
  have h1 : binary64.mul (Dbl.fin 49) (Dbl.fin 1) = Dbl.fin 49 := by
    show fl (49 * 1) = _
    rw [mul_one]
    exact fl_49
  have h2 : binary64.add binary64.zero (Dbl.fin 49) = Dbl.fin 49 := by
    show fl (0 + 49) = _
    rw [zero_add]
    exact fl_49
  have h3 : binary64.sub (Dbl.fin 1) (Dbl.fin 49) = Dbl.fin (-48) := by
    show fl (1 + -49) = _
    rw [show (1 : ℚ) + -49 = -48 by norm_num]
    exact fl_neg48
  rw [h1, h2, h3]
  show Dbl.fin |(-48 : ℚ)| = _
  norm_num

/-- With `b = 49`: every M-step gives `fl(1/49)`. -/
theorem b64_mstep_49 :
    binary64.div (Dbl.fin 1) (binary64.add binary64.zero (Dbl.fin 49))
      = Dbl.fin (5882252574524729 / 288230376151711744) := by
  have h2 : binary64.add binary64.zero (Dbl.fin 49) = Dbl.fin 49 := by
    show fl (0 + 49) = _
    rw [zero_add]
    exact fl_49
  rw [h2]
  show Dbl.div (Dbl.fin 1) (Dbl.fin 49) = _
  rw [Dbl_div_fin 1 49 (by norm_num)]
  exact fl_one_div_49

/-- With `b = 49`: the residual of every later round is `2^-53`. -/
theorem b64_res2_49 :
    binary64.abs (binary64.sub (Dbl.fin 1)
      (binary64.add binary64.zero
        (binary64.mul (Dbl.fin 49) (Dbl.fin (5882252574524729 / 288230376151711744)))))
      = Dbl.fin (1 / 9007199254740992) := by
  have h1 : binary64.mul (Dbl.fin 49) (Dbl.fin (5882252574524729 / 288230376151711744))
      = Dbl.fin (9007199254740991 / 9007199254740992) := fl_49_mul
  have h2 : binary64.add binary64.zero (Dbl.fin (9007199254740991 / 9007199254740992))
      = Dbl.fin (9007199254740991 / 9007199254740992) := by
    show fl (0 + 9007199254740991 / 9007199254740992) = _
    rw [zero_add]
    exact fl_below_one
  have h3 : binary64.sub (Dbl.fin 1) (Dbl.fin (9007199254740991 / 9007199254740992))
      = Dbl.fin (1 / 9007199254740992) := by
    show fl (1 + -(9007199254740991 / 9007199254740992)) = _
    rw [show (1 : ℚ) + -(9007199254740991 / 9007199254740992) = 1 / 9007199254740992 by
      norm_num]
    exact fl_ulp
  rw [h1, h2, h3]
  show Dbl.fin |(1 / 9007199254740992 : ℚ)| = _
  rw [abs_of_pos (by norm_num)]

/-- With `b = 0`: the residual of round 1 is `1`. -/
theorem b64_res1_0 :
    binary64.abs (binary64.sub (Dbl.fin 1)
      (binary64.add binary64.zero (binary64.mul (Dbl.fin 0) (Dbl.fin 1)))) = Dbl.fin 1 := by
  have h1 : binary64.mul (Dbl.fin 0) (Dbl.fin 1) = Dbl.fin 0 := by
    show fl (0 * 1) = _
    rw [zero_mul]
    exact fl_zero
  have h2 : binary64.add binary64.zero (Dbl.fin 0) = Dbl.fin 0 := by
    show fl (0 + 0) = _
    rw [zero_add]
    exact fl_zero
  have h3 : binary64.sub (Dbl.fin 1) (Dbl.fin 0) = Dbl.fin 1 := by
    show fl (1 + -0) = _
    rw [neg_zero, add_zero]
    exact fl_one
  rw [h1, h2, h3]
  show Dbl.fin |(1 : ℚ)| = _
  rw [abs_one]

/-- With `b = 0`: every M-step divides by zero and gives `+inf`. -/
theorem b64_mstep_0 :
    binary64.div (Dbl.fin 1) (binary64.add binary64.zero (Dbl.fin 0)) = Dbl.pinf := by
  have h2 : binary64.add binary64.zero (Dbl.fin 0) = Dbl.fin 0 := by
    show fl (0 + 0) = _
    rw [zero_add]
    exact fl_zero
  rw [h2]
  exact Dbl_div_zero_of_pos 1 one_pos

/-- With `b = 0` and `pi = +inf`: `b * pi` is NaN and so is the residual. -/
theorem b64_res2_0 :
    binary64.abs (binary64.sub (Dbl.fin 1)
      (binary64.add binary64.zero (binary64.mul (Dbl.fin 0) Dbl.pinf))) = Dbl.nan := by
  have h1 : binary64.mul (Dbl.fin 0) Dbl.pinf = Dbl.nan := Dbl_mul_zero_pinf
  rw [h1]
  rfl

/-! ## Claims that depend on the arithmetic of `double` -/

theorem Dbl_not_gt_iff_le (r e : Dbl) (hr : r ≠ Dbl.nan) (he : e ≠ Dbl.nan) :
    Dbl.gt r e = false ↔ Dbl.le r e = true := by
  cases r <;> cases e <;> simp [Dbl.gt, Dbl.le] at hr he ⊢

theorem eStep_pattern {K : ℕ} (N0 : Mat K) (pi : Vec K)
    (hdiv : ∀ p, p ∈ n_locations N0 → pi p.1 + pi p.2 ≠ 0) (i j : Fin K) :
    eStep N0 pi i j ≠ 0 ↔ N0 i j ≠ 0 := by
  rw [eStep_apply]
  constructor
  · intro h h0
    exact h (by rw [h0, zero_div])
  · intro h
    exact div_ne_zero h (hdiv (i, j) ((mem_nonzeros N0 (i, j)).2 h))

/-- The run `K = 1`, `W = 0`, `a = 2`, `b = 0` in `binary64`: `pi` at the start
of round 2 is `+inf`. -/
theorem lone_b0_pi1 :
    G.piSeq binary64 (G.initN binary64 (G.maskDiag binary64 lone))
      (G.numer binary64 (G.maskDiag binary64 lone) (Dbl.fin 2)) (Dbl.fin 0)
      (G.initPi binary64 (unitEigsD 1) (G.maskDiag binary64 lone)) 1 0 = Dbl.pinf := by
  rw [G_piSeq_stationary binary64 _ _ _ _ (G_single_patterns binary64 lone b64_mask_lone).2 0,
    G_single_mStep binary64 _ _ b64_isZero_zero, G_single_numer binary64 lone _ b64_mask_lone,
    b64_numer_2]
  exact b64_mstep_0

/-- C4 (as claimed) fails on a NaN residual: `K = 1`, `W = 0`, `a = 2`, `b = 0`,
`epsilon = 1/128`, `maxit = 5` in `binary64`.  Round 1 divides by `denom = 0`, so
round 2 starts with `pi = +inf`; its residual is `|1 - 0 * inf| = NaN`, the test
`res > epsilon` is false, and the call stops with `converged = true`,
`iters = 2`, although `res[0] ≤ epsilon` does not hold. -/
theorem nan_residual_counterexample :
    (∃ r, G.BT_EM_arma binary64 (unitEigsD 1) lone (Dbl.fin 2) (Dbl.fin 0) 5 (Dbl.fin (1 / 128))
        = some r ∧ r.converged = true ∧ r.iters = 2) ∧
    G.testRound binary64 (G.initN binary64 (G.maskDiag binary64 lone))
      (G.numer binary64 (G.maskDiag binary64 lone) (Dbl.fin 2)) (Dbl.fin 0) (Dbl.fin (1 / 128))
      (G.initPi binary64 (unitEigsD 1) (G.maskDiag binary64 lone)) 1 = true ∧
    G.res binary64 (G.numer binary64 (G.maskDiag binary64 lone) (Dbl.fin 2))
      (G.eStep binary64 (G.initN binary64 (G.maskDiag binary64 lone))
        (G.piSeq binary64 (G.initN binary64 (G.maskDiag binary64 lone))
          (G.numer binary64 (G.maskDiag binary64 lone) (Dbl.fin 2)) (Dbl.fin 0)
          (G.initPi binary64 (unitEigsD 1) (G.maskDiag binary64 lone)) 1))
      (Dbl.fin 0)
      (G.piSeq binary64 (G.initN binary64 (G.maskDiag binary64 lone))
        (G.numer binary64 (G.maskDiag binary64 lone) (Dbl.fin 2)) (Dbl.fin 0)
        (G.initPi binary64 (unitEigsD 1) (G.maskDiag binary64 lone)) 1) 0 = Dbl.nan ∧
    Dbl.le Dbl.nan (Dbl.fin (1 / 128)) = false := by
  have hN := (G_single_patterns binary64 lone b64_mask_lone).2
  have hres : G.res binary64 (G.numer binary64 (G.maskDiag binary64 lone) (Dbl.fin 2))
      (G.eStep binary64 (G.initN binary64 (G.maskDiag binary64 lone))
        (G.piSeq binary64 (G.initN binary64 (G.maskDiag binary64 lone))
          (G.numer binary64 (G.maskDiag binary64 lone) (Dbl.fin 2)) (Dbl.fin 0)
          (G.initPi binary64 (unitEigsD 1) (G.maskDiag binary64 lone)) 1))
      (Dbl.fin 0)
      (G.piSeq binary64 (G.initN binary64 (G.maskDiag binary64 lone))
        (G.numer binary64 (G.maskDiag binary64 lone) (Dbl.fin 2)) (Dbl.fin 0)
        (G.initPi binary64 (unitEigsD 1) (G.maskDiag binary64 lone)) 1) 0 = Dbl.nan := by
    unfold G.res
    rw [G_eStep_empty binary64 _ _ hN,
      G_rowsums_empty binary64 _ _ _ (G_nonzeros_of_isZero binary64 _ (fun _ _ => b64_isZero_zero)),
      lone_b0_pi1, G_single_numer binary64 lone _ b64_mask_lone, b64_numer_2]
    exact b64_res2_0
  have htest : G.testRound binary64 (G.initN binary64 (G.maskDiag binary64 lone))
      (G.numer binary64 (G.maskDiag binary64 lone) (Dbl.fin 2)) (Dbl.fin 0) (Dbl.fin (1 / 128))
      (G.initPi binary64 (unitEigsD 1) (G.maskDiag binary64 lone)) 1 = true := by
    rw [G_single_test binary64 _ _ _ _ _ hN b64_isZero_zero 1, lone_b0_pi1,
      G_single_numer binary64 lone _ b64_mask_lone, b64_numer_2, b64_res2_0]
    rfl
  refine ⟨?_, htest, hres, rfl⟩
  obtain ⟨_, r, hr, h1, hc2, _, hraw, _, hone, hconv⟩ :=
    G_single_item binary64 (unitEigsD 1) lone (Dbl.fin 2) (Dbl.fin 0) (Dbl.fin (1 / 128)) 5
      (by decide) (by decide) b64_isZero_zero b64_mask_lone
  have hraw2 : r.rawPi 0 = Dbl.pinf := by
    rw [hraw, b64_numer_2]
    exact b64_mstep_0
  have hc : r.converged = true := by
    rw [hconv]
    right
    rw [hraw2, b64_numer_2, b64_res2_0]
    rfl
  have hnot1 : r.iters ≠ 1 := by
    intro h
    have := hone.1 h
    rw [b64_numer_2, b64_start, b64_res1_0] at this
    simp [binary64, Dbl.gt] at this
    norm_num at this
  have := hc2 hc
  exact ⟨r, hr, hc, by omega⟩

/-- C4 (amended). In every executed round the convergence test passes iff no
`k` has `res[k] > epsilon`, with `res[k] = |numer[k] - rowsums[k]|` as the code
computes it, in whatever arithmetic; in `binary64` this is `res[k] ≤ epsilon`
when neither value is NaN.  In a round in which `pi[i] + pi[j] ≠ 0` at every
stored position, so that no E-step division has a zero divisor and the stored
pattern of `N` is unchanged, exact arithmetic gives
`rowsums[k] = (Σ_j N[k,j]) * pi[k] + b * pi[k]` and the test passes iff
`res[k] ≤ epsilon` for every `k`. -/
theorem convergence_test_rule {K : ℕ} (N0 : Mat K) (numer : Vec K) (b epsilon : ℚ)
    (s : LoopState K) (hdiv : ∀ p, p ∈ n_locations N0 → s.pi p.1 + s.pi p.2 ≠ 0) :
    ((∀ i j, eStep N0 s.pi i j ≠ 0 ↔ N0 i j ≠ 0) ∧
      (∀ k, rowsums (eStep N0 s.pi) b s.pi k
        = (∑ j, eStep N0 s.pi k j) * s.pi k + b * s.pi k) ∧
      (∀ k, res numer (eStep N0 s.pi) b s.pi k
        = |numer k - rowsums (eStep N0 s.pi) b s.pi k|) ∧
      ((loopBody N0 numer b epsilon s).converged = true
        ↔ ∀ k, res numer (eStep N0 s.pi) b s.pi k ≤ epsilon)) ∧
    (∀ (A : Arith) (M0 : G.Mat A K) (nu : G.Vec A K) (bb ee : A.R) (t : G.LoopState A K),
      ((G.loopBody A M0 nu bb ee t).converged = true
        ↔ ∀ k, A.gt (G.res A nu (G.eStep A M0 t.pi) bb t.pi k) ee = false) ∧
      ∀ k, G.res A nu (G.eStep A M0 t.pi) bb t.pi k
        = A.abs (A.sub (nu k) (G.rowsums A (G.eStep A M0 t.pi) bb t.pi k))) ∧
    (∀ r e : Dbl, r ≠ Dbl.nan → e ≠ Dbl.nan → (Dbl.gt r e = false ↔ Dbl.le r e = true)) := by
  refine ⟨⟨eStep_pattern N0 s.pi hdiv, ?_⟩, ?_, Dbl_not_gt_iff_le⟩
  · exact convergence_test_exact N0 numer b epsilon s
  · intro A M0 nu bb ee t
    exact ⟨G_checkConverged_iff A nu _ bb ee t.pi, fun k => rfl⟩

/-- Witness for C4 (amended): the first round on the specification's 3-item
graph from the all-ones start. -/
theorem convergence_test_rule_witness :
    (loopBody (initN (maskDiag specGraph)) (numer (maskDiag specGraph) 1) 1 (1 / 100)
        firstRound3).converged = true
      ↔ ∀ k, res (numer (maskDiag specGraph) 1)
          (eStep (initN (maskDiag specGraph)) firstRound3.pi) 1 firstRound3.pi k ≤ 1 / 100 :=
  (convergence_test_rule (initN (maskDiag specGraph)) (numer (maskDiag specGraph) 1) 1 (1 / 100)
    firstRound3 (by intro p _; norm_num [firstRound3])).1.2.2.2

/-- C15 (as claimed) fails on a NaN product: in the run `K = 1`, `W = 0`, `a = 2`,
`b = 0` in `binary64`, round 2 starts with `pi = +inf` and has `denom = 0`; the
product `pi * denom` is NaN, so `|numer - pi * denom| ≤ epsilon` does not hold,
yet the test of that round passes. -/
theorem nan_product_counterexample :
    (G.loopBody binary64 (G.initN binary64 (G.maskDiag binary64 lone))
      (G.numer binary64 (G.maskDiag binary64 lone) (Dbl.fin 2)) (Dbl.fin 0) (Dbl.fin (1 / 128))
      { iter := 2, converged := false, rounds := 1,
        pi := G.piSeq binary64 (G.initN binary64 (G.maskDiag binary64 lone))
          (G.numer binary64 (G.maskDiag binary64 lone) (Dbl.fin 2)) (Dbl.fin 0)
          (G.initPi binary64 (unitEigsD 1) (G.maskDiag binary64 lone)) 1 }).converged = true ∧
    G.piSeq binary64 (G.initN binary64 (G.maskDiag binary64 lone))
      (G.numer binary64 (G.maskDiag binary64 lone) (Dbl.fin 2)) (Dbl.fin 0)
      (G.initPi binary64 (unitEigsD 1) (G.maskDiag binary64 lone)) 1 0 = Dbl.pinf ∧
    G.denom binary64 (G.eStep binary64 (G.initN binary64 (G.maskDiag binary64 lone))
      (fun _ => Dbl.pinf)) (Dbl.fin 0) 0 = Dbl.fin 0 ∧
    binary64.mul Dbl.pinf (Dbl.fin 0) = Dbl.nan ∧
    Dbl.le (binary64.abs (binary64.sub
      (G.numer binary64 (G.maskDiag binary64 lone) (Dbl.fin 2) 0)
      (binary64.mul Dbl.pinf (Dbl.fin 0)))) (Dbl.fin (1 / 128)) = false := by
  have hN := (G_single_patterns binary64 lone b64_mask_lone).2
  have hmul : binary64.mul Dbl.pinf (Dbl.fin 0) = Dbl.nan := by
    simp [binary64, Dbl.mul]
  refine ⟨?_, lone_b0_pi1, ?_, hmul, ?_⟩
  · show G.testRound binary64 _ _ _ _ _ 1 = true
    rw [G_single_test binary64 _ _ _ _ _ hN b64_isZero_zero 1, lone_b0_pi1,
      G_single_numer binary64 lone _ b64_mask_lone, b64_numer_2, b64_res2_0]
    rfl
  · unfold G.denom
    rw [G_eStep_empty binary64 _ _ hN,
      G_sum1_empty binary64 _ (G_nonzeros_of_isZero binary64 _ (fun _ _ => b64_isZero_zero))]
    show fl (0 + 0) = _
    rw [zero_add]
    exact fl_zero
  · rw [hmul, G_single_numer binary64 lone _ b64_mask_lone, b64_numer_2]
    rfl

/-- C15 (amended). In a round in which `pi[i] + pi[j] ≠ 0` at every stored
position (no E-step division has a zero divisor), exact arithmetic gives:
`rowsums[k] = pi[k] * denom[k]`; the test passes iff
`|numer[k] - pi[k] * denom[k]| ≤ epsilon` for every `k`; at a fixed point of the
M-step it passes for every `epsilon ≥ 0`; and where `denom[k] ≠ 0` the residual
is `|pi'[k] - pi[k]| * |denom[k]|`.  In whatever arithmetic the code's test
passes iff no `k` has `|numer[k] - rowsums[k]| > epsilon`, with `rowsums` the
accumulated sum and not the product `pi[k] * denom[k]`. -/
theorem residual_is_scaled_step {K : ℕ} (N0 : Mat K) (numer : Vec K) (b epsilon : ℚ)
    (s : LoopState K) (hdiv : ∀ p, p ∈ n_locations N0 → s.pi p.1 + s.pi p.2 ≠ 0) :
    ((∀ i j, eStep N0 s.pi i j ≠ 0 ↔ N0 i j ≠ 0) ∧
      (∀ k, rowsums (eStep N0 s.pi) b s.pi k = s.pi k * denom (eStep N0 s.pi) b k) ∧
      ((loopBody N0 numer b epsilon s).converged = true
        ↔ ∀ k, |numer k - s.pi k * denom (eStep N0 s.pi) b k| ≤ epsilon) ∧
      ((∀ k, s.pi k * denom (eStep N0 s.pi) b k = numer k) → 0 ≤ epsilon →
        (loopBody N0 numer b epsilon s).converged = true) ∧
      (∀ k, denom (eStep N0 s.pi) b k ≠ 0 →
        res numer (eStep N0 s.pi) b s.pi k
          = |(loopBody N0 numer b epsilon s).pi k - s.pi k|
            * |denom (eStep N0 s.pi) b k|)) ∧
    (∀ (A : Arith) (M0 : G.Mat A K) (nu : G.Vec A K) (bb ee : A.R) (t : G.LoopState A K),
      (G.loopBody A M0 nu bb ee t).converged = true
        ↔ ∀ k, A.gt (A.abs (A.sub (nu k) (G.rowsums A (G.eStep A M0 t.pi) bb t.pi k))) ee
            = false) := by
  refine ⟨⟨eStep_pattern N0 s.pi hdiv, ?_⟩, ?_⟩
  · exact residual_is_scaled_step_exact N0 numer b epsilon s
  · intro A M0 nu bb ee t
    exact G_checkConverged_iff A nu _ bb ee t.pi

/-- Witness for C15 (amended): the first round on the specification's 3-item
graph from the all-ones start. -/
theorem residual_is_scaled_step_witness :
    (loopBody (initN (maskDiag specGraph)) (numer (maskDiag specGraph) 1) 1 (1 / 100)
        firstRound3).converged = true
      ↔ ∀ k, |numer (maskDiag specGraph) 1 k
          - firstRound3.pi k * denom (eStep (initN (maskDiag specGraph)) firstRound3.pi) 1 k|
            ≤ 1 / 100 :=
  (residual_is_scaled_step (initN (maskDiag specGraph)) (numer (maskDiag specGraph) 1) 1
    (1 / 100) firstRound3 (by intro p _; norm_num [firstRound3])).1.2.2.1

/-- C17 (as claimed) fails by rounding: `K = 1`, `W = 0`, `a = 2`, `b = 49`,
`epsilon = 0`, `maxit = 100` in `binary64`.  Every M-step gives `fl(1/49)`, and
`49 * fl(1/49)` rounds to `1 - 2^-53`, so every residual from round 2 on is
`2^-53 > 0`: the call runs all 100 rounds and returns `converged = false`. -/
theorem single_item_rounding_counterexample :
    ∃ r, G.BT_EM_arma binary64 (unitEigsD 1) lone (Dbl.fin 2) (Dbl.fin 49) 100 (Dbl.fin 0)
        = some r ∧ r.converged = false ∧ r.iters = 100 ∧
      r.rawPi 0 = Dbl.fin (5882252574524729 / 288230376151711744) ∧
      binary64.mul (Dbl.fin 49) (r.rawPi 0) = Dbl.fin (9007199254740991 / 9007199254740992) := by
  obtain ⟨_, r, hr, _, _, hmaxed, hraw, _, _, hconv⟩ :=
    G_single_item binary64 (unitEigsD 1) lone (Dbl.fin 2) (Dbl.fin 49) (Dbl.fin 0) 100
      (by decide) (by decide) b64_isZero_zero b64_mask_lone
  have hraw2 : r.rawPi 0 = Dbl.fin (5882252574524729 / 288230376151711744) := by
    rw [hraw, b64_numer_2]
    exact b64_mstep_49
  have hc : r.converged = false := by
    cases hcv : r.converged with
    | false => rfl
    | true =>
      rcases hconv.1 hcv with h | h
      · rw [b64_numer_2, b64_start, b64_res1_49] at h
        simp [binary64, Dbl.gt] at h
      · rw [hraw2, b64_numer_2, b64_res2_49] at h
        simp [binary64, Dbl.gt] at h
  refine ⟨r, hr, hc, hmaxed hc, hraw2, ?_⟩
  rw [hraw2]
  exact fl_49_mul

/-- C17 (amended). For a single item (`K = 1`) whose masked diagonal entry is
zero, in whatever arithmetic: the start is the uniform one, every round computes
the same un-normalised `pi[0] = (0 + (a - 1)) / (0 + b)`, the returned `pi[0]`
is `pi[0] / (0 + pi[0])`, and for `maxit ≥ 2` the call either stops with
`converged = true` within 2 rounds or runs all `maxit` rounds with
`converged = false`; it converges iff the residual of round 1 or the residual
`|(a - 1) - b * pi[0]|` of the later rounds does not exceed `epsilon`.  In exact
arithmetic with `b ≠ 0` and `epsilon ≥ 0` the later residual is `0`, so the call
reports `converged = true` with `iters ≤ 2`, `pi[0] = (a - 1) / b`, and returns
`[1]` when `a ≠ 1`. -/
theorem single_item (eigs_gen : Mat 1 → Vec 1) (W : Mat 1) (a b epsilon : ℚ) (maxit : Int)
    (hb : b ≠ 0) (heps : 0 ≤ epsilon) (h2 : 2 ≤ maxit) (hmax : maxit < 2147483648) :
    (chooseStart (maskDiag W) = Start.uniform ∧
      ∃ r, BT_EM_arma eigs_gen W a b maxit epsilon = some r ∧ r.converged = true ∧
        1 ≤ r.iters ∧ r.iters ≤ 2 ∧ r.rawPi 0 = (a - 1) / b ∧ (a ≠ 1 → r.pi 0 = 1)) ∧
    (∀ (A : Arith) (eigs : G.Mat A 1 → G.Vec A 1) (V : G.Mat A 1) (x y e : A.R),
      A.isZero A.zero = true → A.isZero (G.maskDiag A V 0 0) = true →
      G.initPi A eigs (G.maskDiag A V) = G.uniformPi A 1 ∧
      ∃ r, G.BT_EM_arma A eigs V x y maxit e = some r ∧
        1 ≤ r.iters ∧
        (r.converged = true → r.iters ≤ 2) ∧
        (r.converged = false → r.iters = maxit) ∧
        r.rawPi 0 = A.div (A.add A.zero (A.sub x A.one)) (A.add A.zero y) ∧
        r.pi 0 = A.div (r.rawPi 0) (A.add A.zero (r.rawPi 0)) ∧
        (r.iters = 1 ↔
          A.gt (A.abs (A.sub (A.add A.zero (A.sub x A.one))
            (A.add A.zero (A.mul y (A.div A.one (A.ofNat 1)))))) e = false) ∧
        (r.converged = true ↔
          A.gt (A.abs (A.sub (A.add A.zero (A.sub x A.one))
            (A.add A.zero (A.mul y (A.div A.one (A.ofNat 1)))))) e = false ∨
          A.gt (A.abs (A.sub (A.add A.zero (A.sub x A.one))
            (A.add A.zero (A.mul y (r.rawPi 0))))) e = false)) := by
  refine ⟨single_item_exact eigs_gen W a b epsilon maxit hb heps h2 hmax, ?_⟩
  intro A eigs V x y e hz hmask
  exact G_single_item A eigs V x y e maxit h2 hmax hz hmask

/-- Witness for C17 (amended): `W[0,0] = 7`, `a = 3`, `b = 2`, `epsilon = 0`,
`maxit = 2` in exact arithmetic. -/
theorem single_item_witness :
    chooseStart (maskDiag singleItem) = Start.uniform ∧
    ∃ r, BT_EM_arma (unitEigs 1) singleItem 3 2 2 0 = some r ∧ r.converged = true ∧
      1 ≤ r.iters ∧ r.iters ≤ 2 ∧ r.rawPi 0 = (3 - 1) / 2 ∧ ((3 : ℚ) ≠ 1 → r.pi 0 = 1) :=
  (single_item (unitEigs 1) singleItem 3 2 0 2 (by norm_num) le_rfl le_rfl (by decide)).1

theorem divisorsNonzero_of_pos {K : ℕ} (N0 : Mat K) (numer : Vec K) (b : ℚ) (pi0 : Vec K)
    (hN : ∀ i j, 0 ≤ N0 i j) (hnum : ∀ k, 0 < numer k) (hb : 0 < b) (hpi : ∀ k, 0 < pi0 k)
    (n : ℕ) : divisorsNonzero N0 numer b pi0 n := by
  intro m _
  have hp := piSeq_pos N0 numer b pi0 hN hnum hb hpi m
  refine ⟨fun p _ => (add_pos (hp p.1) (hp p.2)).ne', fun k => ?_⟩
  have : 0 ≤ sum1 (eStep N0 (piSeq N0 numer b pi0 m)) k :=
    Finset.sum_nonneg fun j _ => eStep_nonneg _ _ hN hp k j
  unfold denom
  exact (by linarith : 0 < sum1 (eStep N0 (piSeq N0 numer b pi0 m)) k + b).ne'

/-- Witness for C5 (amended): in the specification's scenario no divisor is zero
and the returned `pi` sums to 1. -/
theorem normalization_of_nonzero_sum_witness :
    ∃ r, BT_EM_arma (unitEigs 3) specGraph 1 1 100 (1 / 100) = some r ∧ ∑ k, r.pi k = 1 := by
  obtain ⟨r, hr, _, hsum⟩ :=
    normalization_of_nonzero_sum (unitEigs 3) specGraph 1 1 100 (1 / 100) (by decide) (by decide)
  obtain ⟨n, c, hrun, _, _, _⟩ :=
    runFrom_cases (maskDiag specGraph) 1 1 100 (1 / 100)
      (initPi (unitEigs 3) (maskDiag specGraph)) (by decide) (by decide)
  have hrun2 := hrun _ (Nat.lt_succ_self _)
  have heq : BT_EM_arma (unitEigs 3) specGraph 1 1 100 (1 / 100)
      = runFrom (maskDiag specGraph) 1 1 100 (1 / 100)
          (initPi (unitEigs 3) (maskDiag specGraph)) ((100 : Int).toNat + 1) := rfl
  rw [heq, hrun2] at hr
  have hr2 := (Option.some.inj hr).symm
  subst hr2
  have hW0 : ∀ i j, 0 ≤ maskDiag specGraph i j :=
    maskDiag_nonneg specGraph (by intro i j; fin_cases i <;> fin_cases j <;> simp [specGraph])
  have hN : ∀ i j, 0 ≤ initN (maskDiag specGraph) i j :=
    fun i j => add_nonneg (hW0 i j) (hW0 j i)
  have hnum : ∀ k, 0 < numer (maskDiag specGraph) 1 k := by
    intro k
    fin_cases k <;>
      simp [numer, sum1, maskDiag, schur, spec, specGraph, Fin.sum_univ_three,
        Fin.ext_iff] <;>
      norm_num
  have hpi0 := initPi_pos (unitEigs 3) (maskDiag specGraph) (by intro M _ k; simp [unitEigs])
  have hseq := piSeq_pos (initN (maskDiag specGraph)) (numer (maskDiag specGraph) 1) 1
    (initPi (unitEigs 3) (maskDiag specGraph)) hN hnum one_pos hpi0 n
  refine ⟨_, heq.trans hrun2, hsum (divisorsNonzero_of_pos _ _ _ _ hN hnum one_pos hpi0 _) ?_⟩
  exact (Finset.sum_pos (fun k _ => hseq k) Finset.univ_nonempty).ne'

end SBT
